import Mathlib

/-!
Verification development for the Temoa parallel run coordinator and
commodity-network feasibility analyzer.

Embedded modules (shallow embedding, faithful to the Python source):
* `temoa/extensions/monte_carlo/mc_sequencer.py` — `MCSequencer.start` and
  `MCSequencer.process_solve_results`
* `temoa/extensions/modeling_to_generate_alternatives/worker.py` — `Worker.run`
* `temoa/temoa_model/model_checking/commodity_network_manager.py` —
  `CommodityNetworkManager`
* `temoa/temoa_model/model_checking/network_model_data.py` — `NetworkModelData`

Python strings are modelled as `List Char` (so that all operations are
structurally recursive and kernel-computable); Python integers as `Int`/`Nat`
(they are unbounded); fallible code returns `Except`; the process-parallel
run coordinator is modelled as a deterministic round-based interleaving (one
coordinator loop iteration followed by one worker step) with explicit
bounded channels.
-/

deriving instance DecidableEq for Except

namespace Temoa

/-- Python strings, modelled as character lists. -/
abbrev PyStr := List Char

/-- Python `str.split(sep)` for a single-character separator: `"".split` is
`[""]`, and each occurrence of the separator starts a new field. -/
def splitOnChar (sep : Char) : PyStr → List PyStr
  | [] => [[]]
  | c :: rest =>
    let r := splitOnChar sep rest
    if c = sep then [] :: r
    else
      match r with
      | [] => [[c]]
      | s :: ss => (c :: s) :: ss

/-- The numeric value of a decimal digit character, `none` otherwise. -/
def digitVal (c : Char) : Option Nat :=
  if '0' ≤ c ∧ c ≤ '9' then some (c.toNat - '0'.toNat) else none

/-- Accumulate the decimal value of a digit string; `none` on any
non-digit. -/
def digitsAcc (acc : Nat) : PyStr → Option Nat
  | [] => some acc
  | c :: rest =>
    match digitVal c with
    | none => none
    | some d => digitsAcc (10 * acc + d) rest

/-- Python `int(s)` restricted to the unsigned decimal literals that appear
after the final run-index separator of an instance name (`none` models the
`ValueError` on the empty string or any non-digit character). -/
def pyInt? : PyStr → Option Int
  | [] => none
  | l => (digitsAcc 0 l).map (fun n => (n : Int))

/-- Errors surfaced by the MC sequencer; each constructor corresponds to one
`raise` site (or uncaught exception) in the Python source. -/
inductive MCError where
  /-- `StopIteration` escaping `next(run_gen)` in `MCSequencer.start`. -/
  | stopIteration : MCError
  /-- `ValueError` from `process_solve_results` when the instance name holds
  no `-` separator. -/
  | noSepInName : MCError
  /-- `ValueError` from Python `int()` when the trailing name field is not an
  integer literal. -/
  | badIndexLiteral : MCError
  /-- `ValueError` from `process_solve_results` on a repeated run index. -/
  | duplicateIndex : MCError
  /-- Loop fuel exhausted: stands for a non-terminating (deadlocked) run. -/
  | outOfFuel : MCError
  /-- `join()` on a worker process that never exits. -/
  | joinDeadlock : MCError
deriving DecidableEq, Repr

/-- State of `MCSequencer` relevant to `process_solve_results`: the set of
run indices already seen (`self.seen_instance_indices`) together with the
list of `(iteration, name)` pairs handed to `writer.write_mc_results`. -/
structure WriterState where
  seen : Finset Int
  written : List (Int × PyStr)
deriving DecidableEq

/-- `MCSequencer.process_solve_results`: recover the run index from the
substring after the final `-` of the instance name (`name.split('-')[-1]`),
raise `ValueError` when the name has no separator, when the trailing field
is not an integer literal, or when the index was already seen; otherwise
record the index as seen and write the result. -/
def process_solve_results (w : WriterState) (name : PyStr) :
    Except MCError WriterState :=
  if ¬ '-' ∈ name then
    Except.error MCError.noSepInName
  else
    match pyInt? ((splitOnChar '-' name).getLastD []) with
    | none => Except.error MCError.badIndexLiteral
    | some idx =>
      if idx ∈ w.seen then Except.error MCError.duplicateIndex
      else Except.ok ⟨insert idx w.seen, w.written ++ [(idx, name)]⟩

/-- The run index `process_solve_results` recovers from an instance name,
when the name is well formed. -/
def parseRunIndex (name : PyStr) : Option Int :=
  if '-' ∈ name then pyInt? ((splitOnChar '-' name).getLastD []) else none

/-- Fold `process_solve_results` over a list of result-record names, as the
coordinator does across a run. -/
def processAll (w : WriterState) : List PyStr → Except MCError WriterState
  | [] => Except.ok w
  | n :: rest => do processAll (← process_solve_results w n) rest

theorem process_solve_results_parse_ok (w : WriterState) (name : PyStr)
    (idx : Int) (hp : parseRunIndex name = some idx) (hf : idx ∉ w.seen) :
    process_solve_results w name =
      Except.ok ⟨insert idx w.seen, w.written ++ [(idx, name)]⟩ := by
  unfold parseRunIndex at hp
  by_cases hc : '-' ∈ name
  · rw [if_pos hc] at hp
    unfold process_solve_results
    rw [if_neg (by simp [hc]), hp]
    simp only [if_neg hf]
  · rw [if_neg hc] at hp
    exact absurd hp (by simp)

theorem process_solve_results_parse_none (w : WriterState) (name : PyStr)
    (hp : parseRunIndex name = none) :
    ∃ e, process_solve_results w name = Except.error e := by
  unfold parseRunIndex at hp
  unfold process_solve_results
  by_cases hc : '-' ∈ name
  · rw [if_pos hc] at hp
    rw [if_neg (by simp [hc]), hp]
    exact ⟨MCError.badIndexLiteral, rfl⟩
  · rw [if_pos (by simp [hc])]
    exact ⟨MCError.noSepInName, rfl⟩

theorem process_solve_results_dup (w : WriterState) (name : PyStr)
    (idx : Int) (hp : parseRunIndex name = some idx) (hm : idx ∈ w.seen) :
    process_solve_results w name = Except.error MCError.duplicateIndex := by
  unfold parseRunIndex at hp
  by_cases hc : '-' ∈ name
  · rw [if_pos hc] at hp
    unfold process_solve_results
    rw [if_neg (by simp [hc]), hp]
    simp only [if_pos hm]
  · rw [if_neg hc] at hp
    exact absurd hp (by simp)

theorem process_solve_results_ok_inv (w : WriterState) (name : PyStr)
    (w' : WriterState) (h : process_solve_results w name = Except.ok w') :
    ∃ idx, pyInt? ((splitOnChar '-' name).getLastD []) = some idx ∧
      idx ∉ w.seen ∧
      w' = ⟨insert idx w.seen, w.written ++ [(idx, name)]⟩ := by
  unfold process_solve_results at h
  by_cases hc : '-' ∈ name
  · rw [if_neg (by simp [hc])] at h
    rcases hv : pyInt? ((splitOnChar '-' name).getLastD []) with _ | idx
    · rw [hv] at h
      exact absurd h (by simp)
    · rw [hv] at h
      dsimp only at h
      by_cases hm : idx ∈ w.seen
      · rw [if_pos hm] at h
        exact absurd h (by simp)
      · rw [if_neg hm] at h
        exact ⟨idx, rfl, hm, (Except.ok.injEq _ _ ▸ h).symm⟩
  · rw [if_pos (by simp [hc])] at h
    exact absurd h (by simp)

theorem parseRunIndex_of_ok (w : WriterState) (name : PyStr)
    (w' : WriterState) (h : process_solve_results w name = Except.ok w') :
    parseRunIndex name = pyInt? ((splitOnChar '-' name).getLastD []) := by
  unfold process_solve_results at h
  unfold parseRunIndex
  by_cases hc : '-' ∈ name
  · rw [if_pos hc]
  · rw [if_pos (by simp [hc])] at h
    exact absurd h (by simp)

theorem processAll_distinct_ok (w : WriterState) (names : List PyStr)
    (idxs : List Int) (hp : names.mapM parseRunIndex = some idxs)
    (hnd : idxs.Nodup) (hfresh : ∀ i ∈ idxs, i ∉ w.seen) :
    processAll w names =
      Except.ok ⟨w.seen ∪ idxs.toFinset, w.written ++ idxs.zip names⟩ := by
  induction names generalizing w idxs with
  | nil =>
    simp only [List.mapM_nil, Option.pure_def, Option.some_inj] at hp
    subst hp
    simp [processAll]
  | cons n rest ih =>
    rw [List.mapM_cons] at hp
    rcases h₁ : parseRunIndex n with _ | i
    · rw [h₁] at hp
      exact absurd hp (by simp)
    · rw [h₁] at hp
      rcases h₂ : rest.mapM parseRunIndex with _ | is
      · rw [h₂] at hp
        exact absurd hp (by simp)
      · rw [h₂] at hp
        simp at hp
        subst hp
        have hi : i ∉ w.seen := hfresh i (by simp)
        have hstep := process_solve_results_parse_ok w n i h₁ hi
        have hrest : ∀ j ∈ is, j ∉ insert i w.seen := by
          intro j hj
          simp only [Finset.mem_insert, not_or]
          exact ⟨fun hij => (List.nodup_cons.mp hnd).1 (hij ▸ hj),
            hfresh j (by simp [hj])⟩
        have := ih ⟨insert i w.seen, w.written ++ [(i, n)]⟩ is h₂
          (List.nodup_cons.mp hnd).2 hrest
        rw [processAll, hstep]
        show processAll ⟨insert i w.seen, w.written ++ [(i, n)]⟩ rest = _
        rw [this]
        simp [Finset.insert_union, List.toFinset_cons, List.zip_cons_cons,
          List.append_assoc]

/-- C10: for every Result Record handed to `process_solve_results`, the run
index is recovered by parsing the substring after the final `-` of the
record's model name as an integer; if the name contains no `-` the
coordinator raises a `ValueError` before any deduplication or writing
occurs, so a record with a malformed name is never written. -/
theorem mc_result_run_index_parsing (w : WriterState) (name : PyStr) :
    (¬ '-' ∈ name →
      process_solve_results w name = Except.error MCError.noSepInName) ∧
    (∀ w', process_solve_results w name = Except.ok w' →
      ∃ idx, pyInt? ((splitOnChar '-' name).getLastD []) = some idx ∧
        idx ∉ w.seen ∧
        w' = ⟨insert idx w.seen, w.written ++ [(idx, name)]⟩) := by
  constructor
  · intro hc
    unfold process_solve_results
    rw [if_pos (by simp [hc])]
  · exact process_solve_results_ok_inv w name

/-- Witness for C10: the sentinel name `COYOTE` (no separator) is rejected
without writing, while `run-3` is accepted with run index 3. -/
theorem mc_result_run_index_parsing_witness :
    process_solve_results ⟨∅, []⟩ ("COYOTE".toList) =
      Except.error MCError.noSepInName ∧
    (∃ idx, pyInt? ((splitOnChar '-' ("run-3".toList)).getLastD []) = some idx ∧
      idx ∉ (∅ : Finset Int) ∧
      (⟨{3}, [((3 : Int), "run-3".toList)]⟩ : WriterState) =
        ⟨insert idx ∅, [] ++ [(idx, "run-3".toList)]⟩) :=
  ⟨(mc_result_run_index_parsing ⟨∅, []⟩ ("COYOTE".toList)).1 (by decide),
    (mc_result_run_index_parsing ⟨∅, []⟩ ("run-3".toList)).2
      ⟨{3}, [((3 : Int), "run-3".toList)]⟩ (by decide)⟩

/-- C3: a repeated run index among Result Records is a fatal error — the
coordinator keeps a set of seen indices and raises on processing the second
record with the same index — while records with pairwise-distinct indices
are all accepted and written. -/
theorem mc_duplicate_index_fatal :
    (∀ (w : WriterState) (n₁ n₂ : PyStr) (i : Int) (w₁ : WriterState),
      parseRunIndex n₁ = some i → parseRunIndex n₂ = some i →
      process_solve_results w n₁ = Except.ok w₁ →
      process_solve_results w₁ n₂ = Except.error MCError.duplicateIndex) ∧
    (∀ (w : WriterState) (names : List PyStr) (idxs : List Int),
      names.mapM parseRunIndex = some idxs → idxs.Nodup →
      (∀ i ∈ idxs, i ∉ w.seen) →
      processAll w names =
        Except.ok ⟨w.seen ∪ idxs.toFinset, w.written ++ idxs.zip names⟩) := by
  constructor
  · intro w n₁ n₂ i w₁ hp₁ hp₂ hok
    rcases process_solve_results_ok_inv w n₁ w₁ hok with ⟨j, hj, _, hw₁⟩
    have hij : i = j := by
      have := parseRunIndex_of_ok w n₁ w₁ hok
      rw [this, hj] at hp₁
      exact (Option.some_inj.mp hp₁).symm
    refine process_solve_results_dup w₁ n₂ i hp₂ ?_
    rw [hw₁, hij]
    exact Finset.mem_insert_self j w.seen
  · exact processAll_distinct_ok

/-- Witness for C3: after accepting `a-1`, the record `b-1` carrying the
same run index 1 is rejected as a duplicate; the two-record batch
`[a-1, b-2]` with distinct indices is written in full. -/
theorem mc_duplicate_index_fatal_witness :
    process_solve_results ⟨{1}, [((1 : Int), "a-1".toList)]⟩ ("b-1".toList) =
      Except.error MCError.duplicateIndex ∧
    processAll ⟨∅, []⟩ ["a-1".toList, "b-2".toList] =
      Except.ok ⟨(∅ : Finset Int) ∪ [(1 : Int), 2].toFinset,
        [] ++ [(1 : Int), 2].zip ["a-1".toList, "b-2".toList]⟩ :=
  ⟨mc_duplicate_index_fatal.1 ⟨∅, []⟩ ("a-1".toList) ("b-1".toList) 1
      ⟨{1}, [((1 : Int), "a-1".toList)]⟩ (by decide) (by decide) (by decide),
    mc_duplicate_index_fatal.2 ⟨∅, []⟩ ["a-1".toList, "b-2".toList]
      [1, 2] (by decide) (by decide) (by decide)⟩

/-- `Tech` namedtuple from `network_model_data.py`:
`('region', 'ic', 'name', 'vintage', 'oc')`. -/
structure Tech where
  region : PyStr
  ic : PyStr
  name : PyStr
  vintage : Int
  oc : PyStr
deriving DecidableEq

/-- `NetworkModelData` from `network_model_data.py`.  The Python
`available_techs` dict (a `defaultdict(set)` keyed by `(region, period)`)
is modelled as its key list (`techKeys`, insertion-ordered like a Python
dict) together with a total bucket function defaulting to the empty set;
`demand_commodities` is likewise a `defaultdict(set)` modelled as a total
function. -/
structure NetworkModelData where
  demand_commodities : PyStr × PyStr → Finset PyStr
  source_commodities : Finset PyStr
  all_commodities : Finset PyStr
  techKeys : List (PyStr × PyStr)
  available_techs : PyStr × PyStr → Finset Tech

/-- `NetworkModelData.available_techs` property setter: scan every
`(region, period)` key of the assigned mapping and raise `ValueError` when
some tech in a bucket carries a different region than its key. -/
def set_available_techs (d : NetworkModelData) (keys : List (PyStr × PyStr))
    (ts : PyStr × PyStr → Finset Tech) : Except PyStr NetworkModelData :=
  if ∃ k ∈ keys, ∃ t ∈ ts k, t.region ≠ k.1 then
    Except.error ("Improperly constructed set of techs".toList)
  else
    Except.ok { d with techKeys := keys, available_techs := ts }

/-- One expansion step of forward reachability: a commodity is reached when
some technology whose input is already reached outputs it. -/
def fwdStep (techs : Finset Tech) (s : Finset PyStr) : Finset PyStr :=
  s ∪ (techs.filter (fun t => t.ic ∈ s)).image Tech.oc

/-- One expansion step of backward relevance: a commodity is relevant when
some technology consuming it outputs an already-relevant commodity. -/
def bwdStep (techs : Finset Tech) (s : Finset PyStr) : Finset PyStr :=
  s ∪ (techs.filter (fun t => t.oc ∈ s)).image Tech.ic

/-- Iterate a reachability step to a fixed point (enough fuel is supplied
by the callers: one productive step per technology at most). -/
def iterFix (f : Finset PyStr → Finset PyStr) : Nat → Finset PyStr → Finset PyStr
  | 0, s => s
  | n + 1, s => iterFix f n (f s)

/-- Modelled from the spec: `CommodityNetwork` (module
`model_checking/source_check.py`, imported by the tests and by
`commodity_network_manager.py` but absent from the provided sources) —
forward reachability from the source commodities through the
`(region, period)` technology bucket. -/
def fwdReachable (d : NetworkModelData) (r p : PyStr) : Finset PyStr :=
  iterFix (fwdStep (d.available_techs (r, p)))
    ((d.available_techs (r, p)).card + 1) d.source_commodities

/-- Modelled from the spec: `CommodityNetwork` backward relevance from the
demand commodities of the `(region, period)` pair. -/
def bwdReachable (d : NetworkModelData) (r p : PyStr) : Finset PyStr :=
  iterFix (bwdStep (d.available_techs (r, p)))
    ((d.available_techs (r, p)).card + 1) (d.demand_commodities (r, p))

/-- Modelled from the spec: `CommodityNetwork.get_demand_side_orphans` —
technologies of the bucket whose output commodity cannot reach any demand
commodity. -/
def get_demand_side_orphans (d : NetworkModelData) (r p : PyStr) :
    Finset Tech :=
  (d.available_techs (r, p)).filter (fun t => ¬ t.oc ∈ bwdReachable d r p)

/-- Modelled from the spec: `CommodityNetwork.get_other_orphans` —
technologies of the bucket whose input commodity is not reachable from any
source commodity. -/
def get_other_orphans (d : NetworkModelData) (r p : PyStr) : Finset Tech :=
  (d.available_techs (r, p)).filter (fun t => ¬ t.ic ∈ fwdReachable d r p)

/-- Modelled from the spec: `CommodityNetwork.get_synthetic_links` — valid
input/output combinations retained for visualization only; no claim depends
on its exact value. -/
def get_synthetic_links (d : NetworkModelData) (r p : PyStr) : Finset Tech :=
  (d.available_techs (r, p)).filter
    (fun t => t.ic ∈ fwdReachable d r p ∧ t.oc ∈ bwdReachable d r p)

/-- `CommodityNetworkManager` state (`commodity_network_manager.py`):
periods, the shared `NetworkModelData`, the saved original tech map, the
orphan maps (`defaultdict(set)` keyed by `(region, period)`), the synthetic
link capture, the `analyzed` flag and the region set (`None` until
`analyze_network` runs, modelled as the empty set). -/
structure CommodityNetworkManager where
  periods : List PyStr
  data : NetworkModelData
  orig_tech : PyStr × PyStr → Finset Tech
  demand_orphans : PyStr × PyStr → Finset Tech
  other_orphans : PyStr × PyStr → Finset Tech
  valid_synthetic_links : PyStr × PyStr → Finset Tech
  analyzed : Bool
  regions : Finset PyStr

/-- `CommodityNetworkManager.__init__`. -/
def CommodityNetworkManager.init (periods : List PyStr)
    (network_data : NetworkModelData) : CommodityNetworkManager :=
  { periods := periods
    data := network_data
    orig_tech := network_data.available_techs
    demand_orphans := fun _ => ∅
    other_orphans := fun _ => ∅
    valid_synthetic_links := fun _ => ∅
    analyzed := false
    regions := ∅ }

/-- The `for period in self.periods` gathering loop of one pass of
`_analyze_region`: run the commodity network per period, extend the orphan
maps, capture the synthetic links, and accumulate this pass's orphans.  The
technology buckets are not touched here — removal happens after the whole
pass (see the dev note in the source). -/
def gatherOrphans (m : CommodityNetworkManager) (region : PyStr) :
    List PyStr → CommodityNetworkManager × Finset Tech × Finset Tech
  | [] => (m, ∅, ∅)
  | period :: rest =>
    let newD := get_demand_side_orphans m.data region period
    let newO := get_other_orphans m.data region period
    let m₁ : CommodityNetworkManager := { m with
      demand_orphans := Function.update m.demand_orphans (region, period)
        (m.demand_orphans (region, period) ∪ newD)
      other_orphans := Function.update m.other_orphans (region, period)
        (m.other_orphans (region, period) ∪ newO)
      valid_synthetic_links := Function.update m.valid_synthetic_links
        (region, period) (get_synthetic_links m.data region period) }
    let (m₂, dRest, oRest) := gatherOrphans m₁ region rest
    (m₂, newD ∪ dRest, newO ∪ oRest)

/-- One full pass of `_analyze_region`: gather orphans over all periods,
then remove every orphan found this pass from the technology bucket of
every period of the region. -/
def analyzePass (m : CommodityNetworkManager) (region : PyStr) :
    CommodityNetworkManager × Finset Tech × Finset Tech :=
  let g := gatherOrphans m region m.periods
  let m₁ := g.1
  let dPass := g.2.1
  let oPass := g.2.2
  let m₂ : CommodityNetworkManager := { m₁ with
    data := { m₁.data with
      available_techs := fun k =>
        if k.1 = region ∧ k.2 ∈ m₁.periods then
          (m₁.data.available_techs k \ dPass) \ oPass
        else m₁.data.available_techs k } }
  (m₂, dPass, oPass)

/-- The `while not done` convergence loop of `_analyze_region`, with
explicit fuel (the Python loop has none; termination is proved separately)
and the source's `iter_count`; stops when a full pass finds no new
orphans. -/
def analyzeRegionLoop (region : PyStr) :
    Nat → CommodityNetworkManager → Nat →
      Option (CommodityNetworkManager × Nat)
  | 0, _, _ => none
  | fuel + 1, m, iter_count =>
    let a := analyzePass m region
    if a.2.1 = ∅ ∧ a.2.2 = ∅ then some (a.1, iter_count + 1)
    else analyzeRegionLoop region fuel a.1 (iter_count + 1)

/-- The region's technology set: union of the `(region, period)` buckets
over the region's periods. -/
def regionTechs (m : CommodityNetworkManager) (region : PyStr) : Finset Tech :=
  (m.periods.map (fun p => m.data.available_techs (region, p))).foldr
    (fun s acc => s ∪ acc) ∅

/-- Number of technologies currently available in the region: the measure
that every non-final pass of `_analyze_region` strictly decreases. -/
def regionTechCount (m : CommodityNetworkManager) (region : PyStr) : Nat :=
  (regionTechs m region).card

/-- `CommodityNetworkManager._analyze_region`, run with provably sufficient
fuel. -/
def _analyze_region (m : CommodityNetworkManager) (region : PyStr) :
    Option CommodityNetworkManager :=
  (analyzeRegionLoop region (regionTechCount m region + 1) m 0).map Prod.fst

/-- The `for region in self.regions` loop of `analyze_network`. -/
def analyzeRegions : List PyStr → CommodityNetworkManager →
    Option CommodityNetworkManager
  | [], m => some m
  | r :: rest, m => (_analyze_region m r).bind (analyzeRegions rest)

/-- The region set `analyze_network` iterates over:
`{r for (r, p) in self.data.available_techs if '-' not in r}` — regions
holding the inter-region exchange marker are excluded entirely. -/
def exchangeFreeRegions (d : NetworkModelData) : List PyStr :=
  ((d.techKeys.filter (fun k => ¬ '-' ∈ k.1)).map Prod.fst).dedup

/-- `CommodityNetworkManager.analyze_network`: analyze every region whose
name holds no inter-region exchange marker (`'-' not in r`), then set the
`analyzed` flag and the region set. -/
def analyze_network (m : CommodityNetworkManager) :
    Option CommodityNetworkManager :=
  match analyzeRegions (exchangeFreeRegions m.data) m with
  | none => none
  | some m₁ => some { m₁ with
      analyzed := true
      regions := (exchangeFreeRegions m.data).toFinset }

/-- Error raised by `build_filters` / `make_commodity_plots` when called
before `analyze_network` (a `RuntimeError` in the source). -/
inductive NetError where
  | filtersBeforeAnalysis : NetError
deriving DecidableEq, Repr

/-- The double loop of `build_filters`:
`for r, p in self.data.available_techs: for tech in ...: add(f(tech))`. -/
def keyImage {α : Type} [DecidableEq α] (d : NetworkModelData)
    (f : Tech → α) : Finset α :=
  (d.techKeys.map (fun k => (d.available_techs k).image f)).foldr
    (fun s acc => s ∪ acc) ∅

/-- The filter sets returned by `build_filters`. -/
structure Filters where
  ritvo : Finset (PyStr × PyStr × PyStr × Int × PyStr)
  rtv : Finset (PyStr × PyStr × Int)
  rt : Finset (PyStr × PyStr)
  t : Finset PyStr
  v : Finset Int
  ic : Finset PyStr
  oc : Finset PyStr
deriving DecidableEq

/-- The filters derived from the (pruned) available-tech buckets. -/
def filtersOf (d : NetworkModelData) : Filters :=
  { ritvo := keyImage d (fun tech =>
      (tech.region, tech.ic, tech.name, tech.vintage, tech.oc))
    rtv := keyImage d (fun tech => (tech.region, tech.name, tech.vintage))
    rt := keyImage d (fun tech => (tech.region, tech.name))
    t := keyImage d Tech.name
    v := keyImage d Tech.vintage
    ic := keyImage d Tech.ic
    oc := keyImage d Tech.oc }

/-- `CommodityNetworkManager.build_filters`: a coded-contract failure
(`RuntimeError`) before network analysis, otherwise the filter sets
populated from the pruned data. -/
def build_filters (m : CommodityNetworkManager) : Except NetError Filters :=
  if ¬ m.analyzed then Except.error NetError.filtersBeforeAnalysis
  else Except.ok (filtersOf m.data)

/-- The §3 invariant: every technology of a `(region, period)` bucket
carries that bucket's region. -/
def regionConsistent (d : NetworkModelData) : Prop :=
  ∀ k ∈ d.techKeys, ∀ t ∈ d.available_techs k, t.region = k.1

theorem gatherOrphans_data (m : CommodityNetworkManager) (region : PyStr)
    (ps : List PyStr) : (gatherOrphans m region ps).1.data = m.data := by
  induction ps generalizing m with
  | nil => rfl
  | cons p rest ih => exact ih _

theorem gatherOrphans_periods (m : CommodityNetworkManager) (region : PyStr)
    (ps : List PyStr) : (gatherOrphans m region ps).1.periods = m.periods := by
  induction ps generalizing m with
  | nil => rfl
  | cons p rest ih => exact ih _

theorem gatherOrphans_orphans_mem (m : CommodityNetworkManager)
    (region : PyStr) (ps : List PyStr) (t : Tech)
    (ht : t ∈ (gatherOrphans m region ps).2.1 ∪ (gatherOrphans m region ps).2.2) :
    ∃ p ∈ ps, t ∈ m.data.available_techs (region, p) := by
  induction ps generalizing m with
  | nil => simp [gatherOrphans] at ht
  | cons p rest ih =>
    have hsplit :
        (gatherOrphans m region (p :: rest)).2.1 =
          get_demand_side_orphans m.data region p ∪
            (gatherOrphans _ region rest).2.1 ∧
        (gatherOrphans m region (p :: rest)).2.2 =
          get_other_orphans m.data region p ∪
            (gatherOrphans _ region rest).2.2 := ⟨rfl, rfl⟩
    rw [hsplit.1, hsplit.2] at ht
    simp only [Finset.mem_union] at ht
    rcases ht with (ht | ht) | (ht | ht)
    · exact ⟨p, by simp, (Finset.mem_filter.mp ht).1⟩
    · rcases ih _ (Finset.mem_union_left _ ht) with ⟨q, hq, hmem⟩
      exact ⟨q, by simp [hq], hmem⟩
    · exact ⟨p, by simp, (Finset.mem_filter.mp ht).1⟩
    · rcases ih _ (Finset.mem_union_right _ ht) with ⟨q, hq, hmem⟩
      exact ⟨q, by simp [hq], hmem⟩

theorem gatherOrphans_maps_frame (m : CommodityNetworkManager)
    (region : PyStr) (ps : List PyStr) (k : PyStr × PyStr)
    (hk : k.1 ≠ region) :
    (gatherOrphans m region ps).1.demand_orphans k = m.demand_orphans k ∧
    (gatherOrphans m region ps).1.other_orphans k = m.other_orphans k := by
  induction ps generalizing m with
  | nil => exact ⟨rfl, rfl⟩
  | cons p rest ih =>
    have hne : k ≠ (region, p) := by
      intro h
      exact hk (by rw [h])
    rcases ih ({ m with
      demand_orphans := Function.update m.demand_orphans (region, p)
        (m.demand_orphans (region, p) ∪ get_demand_side_orphans m.data region p)
      other_orphans := Function.update m.other_orphans (region, p)
        (m.other_orphans (region, p) ∪ get_other_orphans m.data region p)
      valid_synthetic_links := Function.update m.valid_synthetic_links
        (region, p) (get_synthetic_links m.data region p) }) with ⟨h₁, h₂⟩
    constructor
    · rw [show (gatherOrphans m region (p :: rest)).1.demand_orphans k = _ from h₁]
      exact Function.update_noteq hne _ _
    · rw [show (gatherOrphans m region (p :: rest)).1.other_orphans k = _ from h₂]
      exact Function.update_noteq hne _ _

theorem analyzePass_periods (m : CommodityNetworkManager) (region : PyStr) :
    (analyzePass m region).1.periods = m.periods := by
  unfold analyzePass
  exact gatherOrphans_periods m region m.periods

theorem analyzePass_subset (m : CommodityNetworkManager) (region : PyStr)
    (k : PyStr × PyStr) :
    (analyzePass m region).1.data.available_techs k ⊆
      m.data.available_techs k := by
  unfold analyzePass
  dsimp only
  by_cases h : k.1 = region ∧ k.2 ∈ (gatherOrphans m region m.periods).1.periods
  · rw [if_pos h, gatherOrphans_data]
    intro t ht
    exact (Finset.mem_sdiff.mp (Finset.mem_sdiff.mp ht).1).1
  · rw [if_neg h, gatherOrphans_data]

theorem analyzePass_frame (m : CommodityNetworkManager) (region : PyStr)
    (k : PyStr × PyStr) (hk : k.1 ≠ region) :
    (analyzePass m region).1.data.available_techs k =
      m.data.available_techs k ∧
    (analyzePass m region).1.demand_orphans k = m.demand_orphans k ∧
    (analyzePass m region).1.other_orphans k = m.other_orphans k := by
  unfold analyzePass
  dsimp only
  refine ⟨?_, gatherOrphans_maps_frame m region m.periods k hk⟩
  rw [if_neg (by simp [hk]), gatherOrphans_data]

theorem analyzePass_removed (m : CommodityNetworkManager) (region : PyStr)
    (t : Tech) (ht : t ∈ (analyzePass m region).2.1 ∪ (analyzePass m region).2.2)
    (p : PyStr) (hp : p ∈ m.periods) :
    t ∉ (analyzePass m region).1.data.available_techs (region, p) := by
  unfold analyzePass at ht ⊢
  dsimp only at ht ⊢
  rw [if_pos ⟨rfl, by rw [gatherOrphans_periods]; exact hp⟩]
  simp only [Finset.mem_union] at ht
  intro hmem
  rcases ht with ht | ht
  · exact (Finset.mem_sdiff.mp (Finset.mem_sdiff.mp hmem).1).2 ht
  · exact (Finset.mem_sdiff.mp hmem).2 ht

theorem regionTechs_mem (m : CommodityNetworkManager) (region : PyStr)
    (t : Tech) :
    t ∈ regionTechs m region ↔
      ∃ p ∈ m.periods, t ∈ m.data.available_techs (region, p) := by
  unfold regionTechs
  induction m.periods with
  | nil => simp
  | cons p rest ih =>
    simp only [List.map_cons, List.foldr_cons, Finset.mem_union, ih,
      List.mem_cons]
    constructor
    · rintro (h | ⟨q, hq, hmem⟩)
      · exact ⟨p, Or.inl rfl, h⟩
      · exact ⟨q, Or.inr hq, hmem⟩
    · rintro ⟨q, hq | hq, hmem⟩
      · exact Or.inl (hq ▸ hmem)
      · exact Or.inr ⟨q, hq, hmem⟩

theorem analyzePass_decrease (m : CommodityNetworkManager) (region : PyStr)
    (h : ¬ ((analyzePass m region).2.1 = ∅ ∧ (analyzePass m region).2.2 = ∅)) :
    regionTechCount (analyzePass m region).1 region <
      regionTechCount m region := by
  have hex : ∃ t, t ∈ (analyzePass m region).2.1 ∪ (analyzePass m region).2.2 := by
    rcases Finset.eq_empty_or_nonempty (analyzePass m region).2.1 with h₁ | h₁
    · rcases Finset.eq_empty_or_nonempty (analyzePass m region).2.2 with h₂ | h₂
      · exact absurd ⟨h₁, h₂⟩ h
      · rcases h₂ with ⟨t, ht⟩
        exact ⟨t, Finset.mem_union_right _ ht⟩
    · rcases h₁ with ⟨t, ht⟩
      exact ⟨t, Finset.mem_union_left _ ht⟩
  rcases hex with ⟨t, ht⟩
  have ht' : t ∈ (gatherOrphans m region m.periods).2.1 ∪
      (gatherOrphans m region m.periods).2.2 := ht
  rcases gatherOrphans_orphans_mem m region m.periods t ht' with ⟨p₀, hp₀, hmem⟩
  unfold regionTechCount
  refine Finset.card_lt_card ⟨?_, ?_⟩
  · intro u hu
    rcases (regionTechs_mem _ region u).mp hu with ⟨p, hp, humem⟩
    rw [analyzePass_periods] at hp
    exact (regionTechs_mem m region u).mpr
      ⟨p, hp, analyzePass_subset m region (region, p) humem⟩
  · intro hsub
    have htin : t ∈ regionTechs (analyzePass m region).1 region :=
      hsub ((regionTechs_mem m region t).mpr ⟨p₀, hp₀, hmem⟩)
    rcases (regionTechs_mem _ region t).mp htin with ⟨p, hp, hmem'⟩
    rw [analyzePass_periods] at hp
    exact analyzePass_removed m region t ht p hp hmem'

theorem analyzePass_techKeys (m : CommodityNetworkManager) (region : PyStr) :
    (analyzePass m region).1.data.techKeys = m.data.techKeys := by
  unfold analyzePass
  dsimp only
  rw [gatherOrphans_data]

theorem analyzeRegionLoop_subset (region : PyStr) (fuel : Nat) :
    ∀ (m : CommodityNetworkManager) (ic n : Nat)
      (m' : CommodityNetworkManager),
      analyzeRegionLoop region fuel m ic = some (m', n) →
      ∀ k, m'.data.available_techs k ⊆ m.data.available_techs k := by
  induction fuel with
  | zero =>
    intro m ic n m' h
    exact absurd h (by simp [analyzeRegionLoop])
  | succ fuel ih =>
    intro m ic n m' h k
    rw [analyzeRegionLoop] at h
    by_cases hc : (analyzePass m region).2.1 = ∅ ∧ (analyzePass m region).2.2 = ∅
    · rw [if_pos hc] at h
      simp only [Option.some_inj, Prod.mk.injEq] at h
      rw [← h.1]
      exact analyzePass_subset m region k
    · rw [if_neg hc] at h
      exact (ih _ _ _ _ h k).trans (analyzePass_subset m region k)

theorem analyzeRegionLoop_frame (region : PyStr) (fuel : Nat) :
    ∀ (m : CommodityNetworkManager) (ic n : Nat)
      (m' : CommodityNetworkManager),
      analyzeRegionLoop region fuel m ic = some (m', n) →
      ∀ k, k.1 ≠ region →
        m'.data.available_techs k = m.data.available_techs k ∧
        m'.demand_orphans k = m.demand_orphans k ∧
        m'.other_orphans k = m.other_orphans k := by
  induction fuel with
  | zero =>
    intro m ic n m' h
    exact absurd h (by simp [analyzeRegionLoop])
  | succ fuel ih =>
    intro m ic n m' h k hk
    rw [analyzeRegionLoop] at h
    by_cases hc : (analyzePass m region).2.1 = ∅ ∧ (analyzePass m region).2.2 = ∅
    · rw [if_pos hc] at h
      simp only [Option.some_inj, Prod.mk.injEq] at h
      rw [← h.1]
      exact analyzePass_frame m region k hk
    · rw [if_neg hc] at h
      rcases ih _ _ _ _ h k hk with ⟨h₁, h₂, h₃⟩
      rcases analyzePass_frame m region k hk with ⟨g₁, g₂, g₃⟩
      exact ⟨h₁.trans g₁, h₂.trans g₂, h₃.trans g₃⟩

theorem analyzeRegionLoop_periods (region : PyStr) (fuel : Nat) :
    ∀ (m : CommodityNetworkManager) (ic n : Nat)
      (m' : CommodityNetworkManager),
      analyzeRegionLoop region fuel m ic = some (m', n) →
      m'.periods = m.periods := by
  induction fuel with
  | zero =>
    intro m ic n m' h
    exact absurd h (by simp [analyzeRegionLoop])
  | succ fuel ih =>
    intro m ic n m' h
    rw [analyzeRegionLoop] at h
    by_cases hc : (analyzePass m region).2.1 = ∅ ∧ (analyzePass m region).2.2 = ∅
    · rw [if_pos hc] at h
      simp only [Option.some_inj, Prod.mk.injEq] at h
      rw [← h.1]
      exact analyzePass_periods m region
    · rw [if_neg hc] at h
      exact (ih _ _ _ _ h).trans (analyzePass_periods m region)

theorem analyzeRegionLoop_techKeys (region : PyStr) (fuel : Nat) :
    ∀ (m : CommodityNetworkManager) (ic n : Nat)
      (m' : CommodityNetworkManager),
      analyzeRegionLoop region fuel m ic = some (m', n) →
      m'.data.techKeys = m.data.techKeys := by
  induction fuel with
  | zero =>
    intro m ic n m' h
    exact absurd h (by simp [analyzeRegionLoop])
  | succ fuel ih =>
    intro m ic n m' h
    rw [analyzeRegionLoop] at h
    by_cases hc : (analyzePass m region).2.1 = ∅ ∧ (analyzePass m region).2.2 = ∅
    · rw [if_pos hc] at h
      simp only [Option.some_inj, Prod.mk.injEq] at h
      rw [← h.1]
      exact analyzePass_techKeys m region
    · rw [if_neg hc] at h
      exact (ih _ _ _ _ h).trans (analyzePass_techKeys m region)

theorem analyzeRegionLoop_terminates (region : PyStr) (fuel : Nat) :
    ∀ (m : CommodityNetworkManager) (ic : Nat),
      regionTechCount m region < fuel →
      ∃ m' n, analyzeRegionLoop region fuel m ic = some (m', n) ∧
        n ≤ ic + regionTechCount m region + 1 := by
  induction fuel with
  | zero =>
    intro m ic h
    exact absurd h (by omega)
  | succ fuel ih =>
    intro m ic hfuel
    rw [analyzeRegionLoop]
    by_cases hc : (analyzePass m region).2.1 = ∅ ∧ (analyzePass m region).2.2 = ∅
    · rw [if_pos hc]
      exact ⟨(analyzePass m region).1, ic + 1, rfl, by omega⟩
    · rw [if_neg hc]
      have hdec := analyzePass_decrease m region hc
      rcases ih (analyzePass m region).1 (ic + 1) (by omega) with ⟨m', n, hl, hn⟩
      exact ⟨m', n, hl, by omega⟩

theorem analyze_region_some (m : CommodityNetworkManager) (region : PyStr) :
    ∃ m', _analyze_region m region = some m' := by
  rcases analyzeRegionLoop_terminates region (regionTechCount m region + 1) m 0
      (by omega) with ⟨m', n, hl, _⟩
  exact ⟨m', by rw [_analyze_region, hl]; rfl⟩

theorem analyze_region_inv (m : CommodityNetworkManager) (region : PyStr)
    (m' : CommodityNetworkManager) (h : _analyze_region m region = some m') :
    ∃ n, analyzeRegionLoop region (regionTechCount m region + 1) m 0 =
      some (m', n) := by
  unfold _analyze_region at h
  rcases hl : analyzeRegionLoop region (regionTechCount m region + 1) m 0 with
    _ | p
  · rw [hl] at h
    exact absurd h (by simp)
  · rw [hl] at h
    simp only [Option.map_some', Option.some_inj] at h
    exact ⟨p.2, by rw [← h]⟩

theorem analyzeRegions_subset (rs : List PyStr) :
    ∀ (m m' : CommodityNetworkManager), analyzeRegions rs m = some m' →
      ∀ k, m'.data.available_techs k ⊆ m.data.available_techs k := by
  induction rs with
  | nil =>
    intro m m' h k
    rw [show m' = m from (Option.some_inj.mp h).symm]
  | cons r rest ih =>
    intro m m' h k
    rw [analyzeRegions] at h
    rcases hr : _analyze_region m r with _ | m₁
    · rw [hr] at h
      exact absurd h (by simp)
    · rw [hr] at h
      rcases analyze_region_inv m r m₁ hr with ⟨n, hl⟩
      exact (ih m₁ m' h k).trans
        (analyzeRegionLoop_subset r _ m 0 n m₁ hl k)

theorem analyzeRegions_frame (rs : List PyStr) :
    ∀ (m m' : CommodityNetworkManager), analyzeRegions rs m = some m' →
      ∀ k, ¬ k.1 ∈ rs →
        m'.data.available_techs k = m.data.available_techs k ∧
        m'.demand_orphans k = m.demand_orphans k ∧
        m'.other_orphans k = m.other_orphans k := by
  induction rs with
  | nil =>
    intro m m' h k _
    rw [show m' = m from (Option.some_inj.mp h).symm]
    exact ⟨rfl, rfl, rfl⟩
  | cons r rest ih =>
    intro m m' h k hk
    rw [analyzeRegions] at h
    rcases hr : _analyze_region m r with _ | m₁
    · rw [hr] at h
      exact absurd h (by simp)
    · rw [hr] at h
      rcases analyze_region_inv m r m₁ hr with ⟨n, hl⟩
      rcases ih m₁ m' h k (fun hm => hk (List.mem_cons_of_mem r hm)) with
        ⟨h₁, h₂, h₃⟩
      rcases analyzeRegionLoop_frame r _ m 0 n m₁ hl k
          (fun he => hk (he ▸ List.mem_cons_self r rest)) with ⟨g₁, g₂, g₃⟩
      exact ⟨h₁.trans g₁, h₂.trans g₂, h₃.trans g₃⟩

theorem analyzeRegions_techKeys (rs : List PyStr) :
    ∀ (m m' : CommodityNetworkManager), analyzeRegions rs m = some m' →
      m'.data.techKeys = m.data.techKeys := by
  induction rs with
  | nil =>
    intro m m' h
    rw [show m' = m from (Option.some_inj.mp h).symm]
  | cons r rest ih =>
    intro m m' h
    rw [analyzeRegions] at h
    rcases hr : _analyze_region m r with _ | m₁
    · rw [hr] at h
      exact absurd h (by simp)
    · rw [hr] at h
      rcases analyze_region_inv m r m₁ hr with ⟨n, hl⟩
      exact (ih m₁ m' h).trans (analyzeRegionLoop_techKeys r _ m 0 n m₁ hl)

theorem analyzeRegions_some (rs : List PyStr) :
    ∀ m, ∃ m', analyzeRegions rs m = some m' := by
  induction rs with
  | nil => exact fun m => ⟨m, rfl⟩
  | cons r rest ih =>
    intro m
    rcases analyze_region_some m r with ⟨m₁, hr⟩
    rcases ih m₁ with ⟨m', hrest⟩
    exact ⟨m', by rw [analyzeRegions, hr]; exact hrest⟩

theorem analyze_network_some (m : CommodityNetworkManager) :
    ∃ m', analyze_network m = some m' := by
  unfold analyze_network
  rcases analyzeRegions_some (exchangeFreeRegions m.data) m with ⟨m₁, h⟩
  rw [h]
  exact ⟨_, rfl⟩

theorem analyze_network_inv (m m' : CommodityNetworkManager)
    (h : analyze_network m = some m') :
    ∃ m₁, analyzeRegions (exchangeFreeRegions m.data) m = some m₁ ∧
      m' = { m₁ with
        analyzed := true
        regions := (exchangeFreeRegions m.data).toFinset } := by
  unfold analyze_network at h
  rcases hr : analyzeRegions (exchangeFreeRegions m.data) m with _ | m₁
  · rw [hr] at h
    exact absurd h (by simp)
  · rw [hr] at h
    exact ⟨m₁, rfl, (Option.some_inj.mp h).symm⟩

theorem keyImage_mem_aux {α : Type} [DecidableEq α]
    (g : PyStr × PyStr → Finset Tech) (f : Tech → α)
    (ks : List (PyStr × PyStr)) (x : α) :
    x ∈ (ks.map (fun k => (g k).image f)).foldr (fun s acc => s ∪ acc) ∅ ↔
      ∃ k ∈ ks, ∃ t ∈ g k, f t = x := by
  induction ks with
  | nil => simp
  | cons k rest ih =>
    simp only [List.map_cons, List.foldr_cons, Finset.mem_union, ih,
      Finset.mem_image, List.mem_cons]
    constructor
    · rintro (⟨t, ht, hfx⟩ | ⟨q, hq, t, ht, hfx⟩)
      · exact ⟨k, Or.inl rfl, t, ht, hfx⟩
      · exact ⟨q, Or.inr hq, t, ht, hfx⟩
    · rintro ⟨q, hq | hq, t, ht, hfx⟩
      · exact Or.inl ⟨t, hq ▸ ht, hfx⟩
      · exact Or.inr ⟨q, hq, t, ht, hfx⟩

theorem keyImage_mem {α : Type} [DecidableEq α] (d : NetworkModelData)
    (f : Tech → α) (x : α) :
    x ∈ keyImage d f ↔
      ∃ k ∈ d.techKeys, ∃ t ∈ d.available_techs k, f t = x :=
  keyImage_mem_aux d.available_techs f d.techKeys x

/-- Demo fixture: the analyzed region. -/
def rA : PyStr := "R1".toList

/-- Demo fixture: an inter-region exchange region (holds the marker). -/
def rEx : PyStr := "R1-R2".toList

/-- Demo fixture: the single period. -/
def pA : PyStr := "2020".toList

/-- Demo fixture: the source commodity. -/
def sC : PyStr := "s1".toList

/-- Demo fixture: the demand commodity. -/
def dC : PyStr := "d1".toList

/-- Demo fixture: a valid source-to-demand technology. -/
def tGood : Tech :=
  { region := rA, ic := sC, name := "t1".toList, vintage := 2000, oc := dC }

/-- Demo fixture: a technology consuming the unreachable commodity `p9`
(an "other orphan"). -/
def tOrphan : Tech :=
  { region := rA, ic := "p9".toList, name := "t9".toList, vintage := 2000,
    oc := dC }

/-- Demo fixture: a technology of the exchange region (also fed by `p9`, so
it would be pruned were the region analyzed). -/
def tEx : Tech :=
  { region := rEx, ic := "p9".toList, name := "tx".toList, vintage := 2000,
    oc := dC }

/-- Demo fixture: a two-region network — `R1` holds one valid chain and one
orphan, the exchange region `R1-R2` holds one (unscreened) technology. -/
def demoData : NetworkModelData :=
  { demand_commodities := fun k => if k = (rA, pA) then {dC} else ∅
    source_commodities := {sC}
    all_commodities := {sC, dC, "p9".toList}
    techKeys := [(rA, pA), (rEx, pA)]
    available_techs := fun k =>
      if k = (rA, pA) then {tGood, tOrphan}
      else if k = (rEx, pA) then {tEx} else ∅ }

/-- Demo fixture: manager over the demo network. -/
def demoManager : CommodityNetworkManager :=
  CommodityNetworkManager.init [pA] demoData

/-- Demo fixture: the manager after `analyze_network`. -/
def demoAnalyzed : CommodityNetworkManager :=
  (analyze_network demoManager).getD demoManager

theorem analyze_network_demo :
    analyze_network demoManager = some demoAnalyzed := by
  rcases analyze_network_some demoManager with ⟨m', h⟩
  rw [demoAnalyzed, h]
  rfl

/-- Demo fixture: a network with no technologies at all. -/
def emptyNetData : NetworkModelData :=
  { demand_commodities := fun _ => ∅
    source_commodities := ∅
    all_commodities := ∅
    techKeys := []
    available_techs := fun _ => ∅ }

/-- Demo fixture: manager over the empty network, with no periods. -/
def emptyManager : CommodityNetworkManager :=
  CommodityNetworkManager.init [] emptyNetData

/-- C5: the analysis only removes technologies — after `analyze_network`
every `(region, period)` bucket is a subset of its input bucket, and every
orphan found in a pass over one period of a region is removed from the
bucket of every period of that region. -/
theorem analyzer_prune_monotone :
    (∀ m m', analyze_network m = some m' →
      ∀ k, m'.data.available_techs k ⊆ m.data.available_techs k) ∧
    (∀ m region t,
      t ∈ (analyzePass m region).2.1 ∪ (analyzePass m region).2.2 →
      ∀ p ∈ m.periods,
        t ∉ (analyzePass m region).1.data.available_techs (region, p)) := by
  constructor
  · intro m m' h k
    rcases analyze_network_inv m m' h with ⟨m₁, hreg, hm'⟩
    rw [hm']
    exact analyzeRegions_subset _ m m₁ hreg k
  · intro m region t ht p hp
    exact analyzePass_removed m region t ht p hp

/-- Witness for C5: on the demo network the analyzed bucket is contained in
the input bucket, and the orphan `t9` found by the first pass is removed. -/
theorem analyzer_prune_monotone_witness :
    analyze_network demoManager = some demoAnalyzed ∧
    demoAnalyzed.data.available_techs (rA, pA) ⊆
      demoManager.data.available_techs (rA, pA) ∧
    tOrphan ∈ (analyzePass demoManager rA).2.1 ∪
      (analyzePass demoManager rA).2.2 ∧
    pA ∈ demoManager.periods ∧
    tOrphan ∉ (analyzePass demoManager rA).1.data.available_techs (rA, pA) :=
  ⟨analyze_network_demo,
    analyzer_prune_monotone.1 demoManager demoAnalyzed analyze_network_demo
      (rA, pA),
    by decide, by decide,
    analyzer_prune_monotone.2 demoManager rA tOrphan (by decide) pA
      (by decide)⟩

/-- C6 (amended): the convergence loop of `_analyze_region` terminates —
with fuel `|technologies| + 1` it reaches the zero-orphan fixed point, the
pass count is at most `|technologies| + 1` (the final confirming pass
included), and every pass that finds an orphan strictly shrinks the
region's technology set. -/
theorem analyze_region_convergence :
    (∀ m region, ∃ m' n,
      analyzeRegionLoop region (regionTechCount m region + 1) m 0 =
        some (m', n) ∧
      n ≤ regionTechCount m region + 1) ∧
    (∀ m region,
      ¬ ((analyzePass m region).2.1 = ∅ ∧ (analyzePass m region).2.2 = ∅) →
      regionTechCount (analyzePass m region).1 region <
        regionTechCount m region) := by
  constructor
  · intro m region
    rcases analyzeRegionLoop_terminates region
        (regionTechCount m region + 1) m 0 (Nat.lt_succ_self _) with
      ⟨m', n, h, hn⟩
    exact ⟨m', n, h, by omega⟩
  · exact analyzePass_decrease

/-- Witness for C6: on the demo region the loop converges (in two passes,
within the 2 + 1 bound), and the non-final first pass strictly shrinks the
technology set. -/
theorem analyze_region_convergence_witness :
    (∃ m' n, analyzeRegionLoop rA (regionTechCount demoManager rA + 1)
        demoManager 0 = some (m', n) ∧
      n ≤ regionTechCount demoManager rA + 1) ∧
    ¬ ((analyzePass demoManager rA).2.1 = ∅ ∧
        (analyzePass demoManager rA).2.2 = ∅) ∧
    regionTechCount (analyzePass demoManager rA).1 rA <
      regionTechCount demoManager rA :=
  ⟨analyze_region_convergence.1 demoManager rA,
    by decide,
    analyze_region_convergence.2 demoManager rA (by decide)⟩

/-- Counterexample to C6 as stated: on a region with zero technologies the
loop still takes one full pass before confirming the fixed point, so it
does not complete within `|technologies| = 0` passes. -/
theorem analyze_region_pass_bound_cex :
    regionTechCount emptyManager rA = 0 ∧
    (analyzeRegionLoop rA (regionTechCount emptyManager rA + 1)
        emptyManager 0).map Prod.snd = some 1 := by
  decide

/-- C7: `build_filters` raises a coded-contract failure before network
analysis has run; after `analyze_network` it succeeds and every filter set
is derived exactly from the pruned technology buckets. -/
theorem build_filters_contract :
    (∀ m : CommodityNetworkManager, m.analyzed = false →
      build_filters m = Except.error NetError.filtersBeforeAnalysis) ∧
    (∀ m m', analyze_network m = some m' →
      build_filters m' = Except.ok (filtersOf m'.data) ∧
      (∀ x, x ∈ (filtersOf m'.data).ritvo ↔
        ∃ k ∈ m'.data.techKeys, ∃ tech ∈ m'.data.available_techs k,
          (tech.region, tech.ic, tech.name, tech.vintage, tech.oc) = x) ∧
      (∀ x, x ∈ (filtersOf m'.data).t ↔
        ∃ k ∈ m'.data.techKeys, ∃ tech ∈ m'.data.available_techs k,
          tech.name = x) ∧
      (∀ x, x ∈ (filtersOf m'.data).v ↔
        ∃ k ∈ m'.data.techKeys, ∃ tech ∈ m'.data.available_techs k,
          tech.vintage = x) ∧
      (∀ x, x ∈ (filtersOf m'.data).ic ↔
        ∃ k ∈ m'.data.techKeys, ∃ tech ∈ m'.data.available_techs k,
          tech.ic = x) ∧
      (∀ x, x ∈ (filtersOf m'.data).oc ↔
        ∃ k ∈ m'.data.techKeys, ∃ tech ∈ m'.data.available_techs k,
          tech.oc = x)) := by
  constructor
  · intro m h
    unfold build_filters
    rw [if_pos (by simp [h])]
  · intro m m' h
    rcases analyze_network_inv m m' h with ⟨m₁, _, hm'⟩
    refine ⟨?_, fun x => keyImage_mem m'.data _ x,
      fun x => keyImage_mem m'.data _ x, fun x => keyImage_mem m'.data _ x,
      fun x => keyImage_mem m'.data _ x, fun x => keyImage_mem m'.data _ x⟩
    unfold build_filters
    rw [if_neg (by rw [hm']; simp)]

/-- Witness for C7: before analysis the demo manager is refused; after
analysis the filters are returned. -/
theorem build_filters_contract_witness :
    demoManager.analyzed = false ∧
    build_filters demoManager = Except.error NetError.filtersBeforeAnalysis ∧
    analyze_network demoManager = some demoAnalyzed ∧
    build_filters demoAnalyzed = Except.ok (filtersOf demoAnalyzed.data) :=
  ⟨by decide,
    build_filters_contract.1 demoManager (by decide),
    analyze_network_demo,
    (build_filters_contract.2 demoManager demoAnalyzed
      analyze_network_demo).1⟩

/-- C8: a region whose name holds the inter-region exchange marker is never
analyzed or pruned — its buckets are unchanged by `analyze_network` and no
orphan records are created for it. -/
theorem exchange_regions_untouched :
    ∀ (periods : List PyStr) (d : NetworkModelData)
      (m' : CommodityNetworkManager),
      analyze_network (CommodityNetworkManager.init periods d) = some m' →
      ∀ r, '-' ∈ r → ∀ p,
        m'.data.available_techs (r, p) = d.available_techs (r, p) ∧
        m'.demand_orphans (r, p) = ∅ ∧
        m'.other_orphans (r, p) = ∅ := by
  intro periods d m' h r hr p
  rcases analyze_network_inv _ m' h with ⟨m₁, hreg, hm'⟩
  have hnot : ¬ r ∈ exchangeFreeRegions
      (CommodityNetworkManager.init periods d).data := by
    intro hmem
    unfold exchangeFreeRegions at hmem
    rw [List.mem_dedup] at hmem
    rcases List.mem_map.mp hmem with ⟨k, hk, hkr⟩
    have hf := List.mem_filter.mp hk
    have : ¬ '-' ∈ k.1 := by simpa using hf.2
    exact this (hkr ▸ hr)
  rcases analyzeRegions_frame _ _ m₁ hreg (r, p) hnot with ⟨h₁, h₂, h₃⟩
  rw [hm']
  exact ⟨h₁, h₂, h₃⟩

/-- Witness for C8: the exchange region `R1-R2` of the demo network keeps
its (would-be orphan) technology and no orphan records after analysis. -/
theorem exchange_regions_untouched_witness :
    analyze_network (CommodityNetworkManager.init [pA] demoData) =
      some demoAnalyzed ∧
    '-' ∈ rEx ∧
    demoAnalyzed.data.available_techs (rEx, pA) =
      demoData.available_techs (rEx, pA) ∧
    demoAnalyzed.demand_orphans (rEx, pA) = ∅ ∧
    demoAnalyzed.other_orphans (rEx, pA) = ∅ :=
  ⟨analyze_network_demo, by decide,
    (exchange_regions_untouched [pA] demoData demoAnalyzed
      analyze_network_demo rEx (by decide) pA).1,
    (exchange_regions_untouched [pA] demoData demoAnalyzed
      analyze_network_demo rEx (by decide) pA).2.1,
    (exchange_regions_untouched [pA] demoData demoAnalyzed
      analyze_network_demo rEx (by decide) pA).2.2⟩

/-- C9: every bucket technology carries the bucket's region — assigning a
mapping violating this raises a `ValueError`, a successful assignment
establishes the invariant, and `analyze_network` preserves it. -/
theorem tech_region_invariant :
    (∀ (d : NetworkModelData) (keys : List (PyStr × PyStr))
      (ts : PyStr × PyStr → Finset Tech),
      (∃ k ∈ keys, ∃ t ∈ ts k, t.region ≠ k.1) →
      set_available_techs d keys ts =
        Except.error ("Improperly constructed set of techs".toList)) ∧
    (∀ (d : NetworkModelData) (keys : List (PyStr × PyStr))
      (ts : PyStr × PyStr → Finset Tech) (d' : NetworkModelData),
      set_available_techs d keys ts = Except.ok d' →
      regionConsistent d') ∧
    (∀ m m', analyze_network m = some m' →
      regionConsistent m.data → regionConsistent m'.data) := by
  refine ⟨?_, ?_, ?_⟩
  · intro d keys ts hbad
    unfold set_available_techs
    rw [if_pos hbad]
  · intro d keys ts d' h
    unfold set_available_techs at h
    by_cases hbad : ∃ k ∈ keys, ∃ t ∈ ts k, t.region ≠ k.1
    · rw [if_pos hbad] at h
      exact absurd h (by simp)
    · rw [if_neg hbad] at h
      push_neg at hbad
      simp only [Except.ok.injEq] at h
      subst h
      intro k hk t ht
      exact hbad k hk t ht
  · intro m m' h hcons
    rcases analyze_network_inv m m' h with ⟨m₁, hreg, hm'⟩
    intro k hk t ht
    rw [hm'] at hk ht
    have hkeys : m₁.data.techKeys = m.data.techKeys :=
      analyzeRegions_techKeys _ m m₁ hreg
    exact hcons k (hkeys ▸ hk)
      t (analyzeRegions_subset _ m m₁ hreg k ht)

/-- Witness for C9: a bucket keyed `R1` holding the `R1-R2` technology is
rejected; a consistent assignment is accepted and satisfies the invariant;
the analyzed demo manager inherits the invariant. -/
theorem tech_region_invariant_witness :
    (∃ k ∈ [(rA, pA)], ∃ t ∈ (fun _ => ({tEx} : Finset Tech)) k,
      t.region ≠ k.1) ∧
    set_available_techs emptyNetData [(rA, pA)] (fun _ => {tEx}) =
      Except.error ("Improperly constructed set of techs".toList) ∧
    set_available_techs emptyNetData [(rA, pA)] (fun _ => {tGood}) =
      Except.ok { emptyNetData with
        techKeys := [(rA, pA)]
        available_techs := fun _ => {tGood} } ∧
    regionConsistent { emptyNetData with
      techKeys := [(rA, pA)]
      available_techs := fun _ => ({tGood} : Finset Tech) } ∧
    regionConsistent demoAnalyzed.data :=
  ⟨by decide,
    tech_region_invariant.1 emptyNetData [(rA, pA)] (fun _ => {tEx})
      (by decide),
    by rw [set_available_techs, if_neg (by decide)],
    tech_region_invariant.2.1 emptyNetData [(rA, pA)] (fun _ => {tGood}) _
      (by rw [set_available_techs, if_neg (by decide)]),
    tech_region_invariant.2.2 demoManager demoAnalyzed analyze_network_demo
      (by unfold regionConsistent; decide)⟩

/-- A work item: a built model instance, identified by its name (tagged
`...-idx` by the run manager). -/
structure Item where
  name : PyStr
deriving DecidableEq

/-- Entries of the work channel: a model instance or the `ZEBRA` shutdown
sentinel pushed by the coordinator. -/
inductive WQEntry where
  | work : Item → WQEntry
  | zebra : WQEntry
deriving DecidableEq

/-- Entries of the results channel: a solved model or the `COYOTE`
shutdown-acknowledgment sentinel posted by a worker. -/
inductive RQEntry where
  | res : Item → RQEntry
  | coyote : RQEntry
deriving DecidableEq

/-- Joint state of `MCSequencer.start` and the worker pool.  The three
bounded multiprocessing queues are FIFO lists (the log queue carries only
log records and is not modelled); `workersRunning` counts workers still in
their `while True` loop; `writer` is the `process_solve_results` state;
`zebrasSent`/`acksSeen` count shutdown tokens and acknowledgments;
`joined`/`channelsClosed` record the final joins and channel closes. -/
structure SeqState where
  runGen : List Item
  inst : Option Item
  moreRuns : Bool
  workQueue : List WQEntry
  resultQueue : List RQEntry
  workersRunning : Nat
  writer : WriterState
  solve_count : Nat
  zebrasSent : Nat
  acksSeen : Nat
  joined : Bool
  channelsClosed : Bool
deriving DecidableEq

/-- One pass through the body of `Worker.run` by some free worker, between
two coordinator polls: block on `model_queue.get()` (no step when the work
channel is empty or no worker is running); on `ZEBRA` put `COYOTE` on the
results channel and exit the loop; on a model, solve it — `solves`
abstracts the external engine call together with
`check_optimal_termination` — and post the model on success (a blocking
put, modelled by requiring room in the bounded channel) or post nothing and
return to waiting on failure. -/
def workerStep (N : Nat) (solves : Item → Bool) (s : SeqState) : SeqState :=
  match s.workQueue with
  | [] => s
  | e :: rest =>
    if s.workersRunning = 0 then s
    else
      match e with
      | WQEntry.zebra =>
        if s.resultQueue.length < N + 1 then
          { s with
            workQueue := rest
            resultQueue := s.resultQueue ++ [RQEntry.coyote]
            workersRunning := s.workersRunning - 1 }
        else s
      | WQEntry.work i =>
        if solves i then
          if s.resultQueue.length < N + 1 then
            { s with
              workQueue := rest
              resultQueue := s.resultQueue ++ [RQEntry.res i] }
          else s
        else { s with workQueue := rest }

/-- One iteration of the `while more_runs` body of `MCSequencer.start`:
try a non-blocking put of the held instance (on success pull the next run
from the generator, flipping `more_runs` off on `StopIteration`), then a
non-blocking get from the results channel, handing any record to
`process_solve_results` and bumping `solve_count` (the log-queue drain is
not modelled).  The Python loop hands whatever it got to
`process_solve_results`, so a `COYOTE` sentinel would be processed as the
string `COYOTE`. -/
def seqBody (s : SeqState) : Except MCError SeqState :=
  let s₁ :=
    if s.workQueue.length < 1 then
      match s.inst with
      | some i =>
        let sp := { s with workQueue := s.workQueue ++ [WQEntry.work i] }
        match sp.runGen with
        | j :: rest => { sp with inst := some j, runGen := rest }
        | [] => { sp with inst := none, moreRuns := false }
      | none => s
    else s
  match s₁.resultQueue with
  | [] => Except.ok s₁
  | r :: rest =>
    let s₂ := { s₁ with resultQueue := rest }
    match r with
    | RQEntry.res i => do
      let w₁ ← process_solve_results s₂.writer i.name
      Except.ok { s₂ with writer := w₁, solve_count := s₂.solve_count + 1 }
    | RQEntry.coyote => do
      let w₁ ← process_solve_results s₂.writer ("COYOTE".toList)
      Except.ok { s₂ with writer := w₁, solve_count := s₂.solve_count + 1 }

/-- The `while more_runs` loop, one worker pass per coordinator sleep;
fuel exhaustion stands for non-termination. -/
def mainLoop (N : Nat) (solves : Item → Bool) :
    Nat → SeqState → Except MCError SeqState
  | 0, _ => Except.error MCError.outOfFuel
  | fuel + 1, s =>
    if s.moreRuns then do
      let s₁ ← seqBody s
      mainLoop N solves fuel (workerStep N solves s₁)
    else Except.ok s

/-- The `for _ in workers: work_queue.put('ZEBRA')` shutdown-token loop:
each blocking put waits for room in the capacity-1 work channel, workers
running in between. -/
def shutdownPush (N : Nat) (solves : Item → Bool) :
    Nat → Nat → SeqState → Except MCError SeqState
  | 0, _, _ => Except.error MCError.outOfFuel
  | _ + 1, 0, s => Except.ok s
  | fuel + 1, k + 1, s =>
    if s.workQueue.length < 1 then
      shutdownPush N solves fuel k (workerStep N solves
        { s with
          workQueue := s.workQueue ++ [WQEntry.zebra]
          zebrasSent := s.zebrasSent + 1 })
    else
      shutdownPush N solves fuel (k + 1) (workerStep N solves s)

/-- The post-shutdown drain loop (`# 7b` in the source): keep pulling from
the results channel, counting `COYOTE` acknowledgments in `empty`
(`acksSeen`) and processing every other record, until the count reaches
`num_workers`. -/
def drainLoop (N : Nat) (solves : Item → Bool) :
    Nat → SeqState → Except MCError SeqState
  | 0, _ => Except.error MCError.outOfFuel
  | fuel + 1, s => do
    let s₁ ←
      match s.resultQueue with
      | [] => Except.ok s
      | r :: rest =>
        match r with
        | RQEntry.coyote =>
          Except.ok { s with resultQueue := rest, acksSeen := s.acksSeen + 1 }
        | RQEntry.res i => do
          let w₁ ← process_solve_results s.writer i.name
          Except.ok { s with
            resultQueue := rest
            writer := w₁
            solve_count := s.solve_count + 1 }
    if s₁.acksSeen = N then Except.ok s₁
    else drainLoop N solves fuel (workerStep N solves s₁)

/-- The final `for w in workers: w.join()` and the three channel closes: a
worker that never exits its loop would deadlock the join. -/
def joinAndClose (s : SeqState) : Except MCError SeqState :=
  if s.workersRunning ≠ 0 then Except.error MCError.joinDeadlock
  else Except.ok { s with joined := true, channelsClosed := true }

/-- `MCSequencer.start` (step 6 onward): workers already started, pull the
first instance from the run generator — an empty generator lets
`StopIteration` escape — then run the main loop, push one shutdown token
per worker, drain the acknowledgments, and join/close.  The Python loops
carry no fuel; the fuels supplied here are proved sufficient (the run
never returns `outOfFuel`), so they are not observable. -/
def start (N : Nat) (solves : Item → Bool) (items : List Item) :
    Except MCError SeqState :=
  match items with
  | [] => Except.error MCError.stopIteration
  | i :: rest => do
    let s₀ : SeqState :=
      { runGen := rest
        inst := some i
        moreRuns := true
        workQueue := []
        resultQueue := []
        workersRunning := N
        writer := ⟨∅, []⟩
        solve_count := 0
        zebrasSent := 0
        acksSeen := 0
        joined := false
        channelsClosed := false }
    let s₁ ← mainLoop N solves (items.length + 1) s₀
    let s₂ ← shutdownPush N solves (N + 1) N s₁
    let s₃ ← drainLoop N solves (N + 2) s₂
    joinAndClose s₃

theorem exceptBind_ok {ε α β : Type} (a : α) (f : α → Except ε β) :
    (do let x ← Except.ok a; f x) = f a := rfl

theorem exceptBind_error {ε α β : Type} (e : ε) (f : α → Except ε β) :
    (do let x ← (Except.error e : Except ε α); f x) = Except.error e := rfl

theorem processAll_append (w : WriterState) (xs ys : List PyStr) :
    processAll w (xs ++ ys) =
      match processAll w xs with
      | Except.ok w₁ => processAll w₁ ys
      | Except.error e => Except.error e := by
  induction xs generalizing w with
  | nil => simp [processAll]
  | cons n rest ih =>
    rw [List.cons_append, processAll, processAll]
    rcases h : process_solve_results w n with e | w₁
    · rw [exceptBind_error, exceptBind_error]
    · rw [exceptBind_ok, exceptBind_ok]
      exact ih w₁

theorem processAll_append_ok (w wfin : WriterState) (xs ys : List PyStr)
    (h : processAll w (xs ++ ys) = Except.ok wfin) :
    ∃ w₁, processAll w xs = Except.ok w₁ ∧
      processAll w₁ ys = Except.ok wfin := by
  rw [processAll_append] at h
  rcases hx : processAll w xs with e | w₁
  · rw [hx] at h
    exact absurd h (by simp)
  · rw [hx] at h
    exact ⟨w₁, rfl, h⟩

theorem processAll_single_ok (w wfin : WriterState) (n : PyStr)
    (h : processAll w [n] = Except.ok wfin) :
    process_solve_results w n = Except.ok wfin := by
  rw [processAll] at h
  rcases hx : process_solve_results w n with e | w₁
  · rw [hx, exceptBind_error] at h
    exact h
  · rw [hx, exceptBind_ok, processAll] at h
    exact h

theorem workerStep_eval_work (N : Nat) (solves : Item → Bool) (i : Item)
    (gen : List Item) (oi : Option Item) (mr : Bool) (rq : List RQEntry)
    (wr : Nat) (w : WriterState) (sc zs ak : Nat) (jn cc : Bool)
    (hwr : wr ≠ 0) (hcap : rq.length < N + 1) :
    workerStep N solves
        ⟨gen, oi, mr, [WQEntry.work i], rq, wr, w, sc, zs, ak, jn, cc⟩ =
      if solves i then
        ⟨gen, oi, mr, [], rq ++ [RQEntry.res i], wr, w, sc, zs, ak, jn, cc⟩
      else ⟨gen, oi, mr, [], rq, wr, w, sc, zs, ak, jn, cc⟩ := by
  unfold workerStep
  dsimp only
  rw [if_neg hwr]
  by_cases hs : solves i
  · rw [if_pos hs, if_pos hcap, if_pos hs]
  · rw [if_neg hs, if_neg hs]

theorem workerStep_eval_zebra (N : Nat) (solves : Item → Bool)
    (gen : List Item) (oi : Option Item) (mr : Bool) (rq : List RQEntry)
    (wr : Nat) (w : WriterState) (sc zs ak : Nat) (jn cc : Bool)
    (hwr : wr ≠ 0) (hcap : rq.length < N + 1) :
    workerStep N solves
        ⟨gen, oi, mr, [WQEntry.zebra], rq, wr, w, sc, zs, ak, jn, cc⟩ =
      ⟨gen, oi, mr, [], rq ++ [RQEntry.coyote], wr - 1, w, sc, zs, ak,
        jn, cc⟩ := by
  unfold workerStep
  dsimp only
  rw [if_neg hwr, if_pos hcap]

theorem workerStep_eval_idle (N : Nat) (solves : Item → Bool)
    (s : SeqState) (hw : s.workQueue = []) :
    workerStep N solves s = s := by
  unfold workerStep
  rw [hw]

theorem mainLoop_run (N : Nat) (solves : Item → Bool) (hN : N ≠ 0)
    (gen : List Item) :
    ∀ (i : Item) (pend : List Item) (w wmid : WriterState) (sc zs ak : Nat),
      pend.length ≤ 1 →
      processAll w ((pend ++ (i :: gen).dropLast.filter solves).map
        Item.name) = Except.ok wmid →
      mainLoop N solves (gen.length + 2)
        ⟨gen, some i, true, [], pend.map RQEntry.res, N, w, sc, zs, ak,
          false, false⟩ =
      Except.ok
        ⟨[], none, false, [],
          if solves ((i :: gen).getLast (List.cons_ne_nil i gen)) then
            [RQEntry.res ((i :: gen).getLast (List.cons_ne_nil i gen))]
          else [],
          N, wmid,
          sc + (pend ++ (i :: gen).dropLast.filter solves).length,
          zs, ak, false, false⟩ := by
  induction gen with
  | nil =>
    intro i pend w wmid sc zs ak hlen hproc
    simp only [List.dropLast_single, List.filter_nil, List.append_nil,
      List.length_nil, List.getLast_singleton, Nat.zero_add] at hproc ⊢
    rcases pend with _ | ⟨x, pend'⟩
    · simp only [List.map_nil, processAll, Except.ok.injEq] at hproc
      subst hproc
      simp only [List.map_nil]
      rw [show (2 : Nat) = 1 + 1 from rfl, mainLoop, if_pos rfl]
      have hsb : seqBody ⟨[], some i, true, [], [], N, w, sc, zs, ak,
          false, false⟩ =
        Except.ok ⟨[], none, false, [WQEntry.work i], [], N, w, sc, zs, ak,
          false, false⟩ := rfl
      rw [hsb, exceptBind_ok,
        workerStep_eval_work N solves i [] none false [] N w sc zs ak
          false false hN (by simp)]
      by_cases hs : solves i
      · rw [if_pos hs, mainLoop, if_neg (by simp)]
        simp [hs]
      · rw [if_neg hs, mainLoop, if_neg (by simp)]
        simp [hs]
    · rcases pend' with _ | ⟨y, t⟩
      · simp only [List.map_cons, List.map_nil] at hproc ⊢
        have hx := processAll_single_ok w wmid x.name hproc
        rw [show (2 : Nat) = 1 + 1 from rfl, mainLoop, if_pos rfl]
        have hsb : seqBody ⟨[], some i, true, [], [RQEntry.res x], N, w,
            sc, zs, ak, false, false⟩ =
          (do
            let w₁ ← process_solve_results w x.name
            Except.ok ⟨[], none, false, [WQEntry.work i], [], N, w₁,
              sc + 1, zs, ak, false, false⟩) := rfl
        rw [hsb, hx, exceptBind_ok, exceptBind_ok,
          workerStep_eval_work N solves i [] none false [] N wmid (sc + 1)
            zs ak false false hN (by simp)]
        by_cases hs : solves i
        · rw [if_pos hs, mainLoop, if_neg (by simp)]
          simp [hs]
        · rw [if_neg hs, mainLoop, if_neg (by simp)]
          simp [hs]
      · simp at hlen
  | cons g rest ih =>
    intro i pend w wmid sc zs ak hlen hproc
    have hdl : (i :: g :: rest).dropLast = i :: (g :: rest).dropLast := rfl
    rw [hdl, List.filter_cons] at hproc ⊢
    rw [show (g :: rest).length + 2 = (rest.length + 2) + 1 from by
      simp [List.length_cons]]
    rw [mainLoop, if_pos rfl]
    by_cases hs : solves i
    · rw [if_pos hs] at hproc ⊢
      rw [List.map_append] at hproc
      rcases processAll_append_ok _ _ _ _ hproc with ⟨w₁, hw₁, hrest⟩
      rcases pend with _ | ⟨x, pend'⟩
      · simp only [List.map_nil, processAll, Except.ok.injEq] at hw₁
        subst hw₁
        have hsb : seqBody ⟨g :: rest, some i, true, [], [], N, w, sc, zs,
            ak, false, false⟩ =
          Except.ok ⟨rest, some g, true, [WQEntry.work i], [], N, w, sc,
            zs, ak, false, false⟩ := rfl
        simp only [List.map_nil]
        rw [hsb, exceptBind_ok,
          workerStep_eval_work N solves i rest (some g) true [] N w sc zs
            ak false false hN (by simp), if_pos hs]
        have hrec := ih g [i] w wmid sc zs ak (by simp) (by
          simpa using hrest)
        simp only [List.map_cons, List.map_nil] at hrec
        rw [List.nil_append, hrec]
        simp [List.getLast_cons (List.cons_ne_nil g rest), Nat.add_comm,
          Nat.add_left_comm]
      · rcases pend' with _ | ⟨y, t⟩
        · simp only [List.map_cons, List.map_nil] at hw₁
          have hx := processAll_single_ok w w₁ x.name hw₁
          have hsb : seqBody ⟨g :: rest, some i, true, [],
              [RQEntry.res x], N, w, sc, zs, ak, false, false⟩ =
            (do
              let w₂ ← process_solve_results w x.name
              Except.ok ⟨rest, some g, true, [WQEntry.work i], [], N, w₂,
                sc + 1, zs, ak, false, false⟩) := rfl
          simp only [List.map_cons, List.map_nil]
          rw [hsb, hx, exceptBind_ok, exceptBind_ok,
            workerStep_eval_work N solves i rest (some g) true [] N w₁
              (sc + 1) zs ak false false hN (by simp), if_pos hs]
          have hrec := ih g [i] w₁ wmid (sc + 1) zs ak (by simp) (by
            simpa using hrest)
          simp only [List.map_cons, List.map_nil] at hrec
          rw [List.nil_append, hrec]
          simp [List.getLast_cons (List.cons_ne_nil g rest), Nat.add_comm,
            Nat.add_left_comm]
        · simp at hlen
    · rw [if_neg hs] at hproc ⊢
      rw [List.map_append] at hproc
      rcases processAll_append_ok _ _ _ _ hproc with ⟨w₁, hw₁, hrest⟩
      rcases pend with _ | ⟨x, pend'⟩
      · simp only [List.map_nil, processAll, Except.ok.injEq] at hw₁
        subst hw₁
        have hsb : seqBody ⟨g :: rest, some i, true, [], [], N, w, sc, zs,
            ak, false, false⟩ =
          Except.ok ⟨rest, some g, true, [WQEntry.work i], [], N, w, sc,
            zs, ak, false, false⟩ := rfl
        simp only [List.map_nil]
        rw [hsb, exceptBind_ok,
          workerStep_eval_work N solves i rest (some g) true [] N w sc zs
            ak false false hN (by simp), if_neg hs]
        have hrec := ih g [] w wmid sc zs ak (by simp) (by
          simpa using hrest)
        simp only [List.map_nil] at hrec
        rw [hrec]
        simp [List.getLast_cons (List.cons_ne_nil g rest), Nat.add_comm,
          Nat.add_left_comm]
      · rcases pend' with _ | ⟨y, t⟩
        · simp only [List.map_cons, List.map_nil] at hw₁
          have hx := processAll_single_ok w w₁ x.name hw₁
          have hsb : seqBody ⟨g :: rest, some i, true, [],
              [RQEntry.res x], N, w, sc, zs, ak, false, false⟩ =
            (do
              let w₂ ← process_solve_results w x.name
              Except.ok ⟨rest, some g, true, [WQEntry.work i], [], N, w₂,
                sc + 1, zs, ak, false, false⟩) := rfl
          simp only [List.map_cons, List.map_nil]
          rw [hsb, hx, exceptBind_ok, exceptBind_ok,
            workerStep_eval_work N solves i rest (some g) true [] N w₁
              (sc + 1) zs ak false false hN (by simp), if_neg hs]
          have hrec := ih g [] w₁ wmid (sc + 1) zs ak (by simp) (by
            simpa using hrest)
          simp only [List.map_nil] at hrec
          rw [hrec]
          simp [List.getLast_cons (List.cons_ne_nil g rest), Nat.add_comm,
            Nat.add_left_comm]
        · simp at hlen

theorem shutdownPush_run (N : Nat) (solves : Item → Bool) :
    ∀ (k : Nat) (rq : List RQEntry) (w : WriterState) (sc zs ak : Nat),
      rq.length + k ≤ N + 1 →
      shutdownPush N solves (k + 1) k
        ⟨[], none, false, [], rq, k, w, sc, zs, ak, false, false⟩ =
      Except.ok
        ⟨[], none, false, [], rq ++ List.replicate k RQEntry.coyote, 0, w,
          sc, zs + k, ak, false, false⟩ := by
  intro k
  induction k with
  | zero =>
    intro rq w sc zs ak hcap
    simp [shutdownPush]
  | succ k ihk =>
    intro rq w sc zs ak hcap
    rw [shutdownPush, if_pos (by simp)]
    simp only [List.nil_append]
    rw [workerStep_eval_zebra N solves [] none false rq (k + 1) w sc
      (zs + 1) ak false false (Nat.succ_ne_zero k) (by omega)]
    simp only [Nat.add_sub_cancel]
    rw [ihk (rq ++ [RQEntry.coyote]) w sc (zs + 1) ak (by simp; omega)]
    simp [List.append_assoc, List.replicate_succ, Nat.add_comm,
      Nat.add_left_comm]

theorem drainLoop_coyotes (N : Nat) (solves : Item → Bool) :
    ∀ (k : Nat), 1 ≤ k →
      ∀ (f a : Nat) (w : WriterState) (sc zs : Nat),
      a + k = N →
      drainLoop N solves (k + f + 1)
        ⟨[], none, false, [], List.replicate k RQEntry.coyote, 0, w, sc,
          zs, a, false, false⟩ =
      Except.ok ⟨[], none, false, [], [], 0, w, sc, zs, N, false,
        false⟩ := by
  intro k
  induction k with
  | zero => intro hk; exact absurd hk (by omega)
  | succ k ihk =>
    intro _ f a w sc zs hak
    have hd : drainLoop N solves ((k + f + 1) + 1)
        ⟨[], none, false, [], RQEntry.coyote ::
          List.replicate k RQEntry.coyote, 0, w, sc, zs, a, false,
          false⟩ =
      (if a + 1 = N then
        Except.ok ⟨[], none, false, [], List.replicate k RQEntry.coyote,
          0, w, sc, zs, a + 1, false, false⟩
      else drainLoop N solves (k + f + 1) (workerStep N solves
        ⟨[], none, false, [], List.replicate k RQEntry.coyote, 0, w, sc,
          zs, a + 1, false, false⟩)) := rfl
    rw [show k + 1 + f + 1 = (k + f + 1) + 1 from by omega]
    rw [show List.replicate (k + 1) RQEntry.coyote = RQEntry.coyote ::
      List.replicate k RQEntry.coyote from List.replicate_succ _ _, hd]
    by_cases hk0 : k = 0
    · subst hk0
      rw [if_pos (by omega)]
      simp only [List.replicate_zero]
      rw [show a + 1 = N from by omega]
    · rw [if_neg (by omega), workerStep_eval_idle N solves _ rfl]
      exact ihk (by omega) f (a + 1) w sc zs (by omega)

theorem drainLoop_run (N : Nat) (solves : Item → Bool) :
    ∀ (items : List Item) (k : Nat), 1 ≤ k →
      ∀ (f a : Nat) (w wmid : WriterState) (sc zs : Nat),
      a + k = N →
      processAll w (items.map Item.name) = Except.ok wmid →
      drainLoop N solves (items.length + k + f + 1)
        ⟨[], none, false, [], items.map RQEntry.res ++
          List.replicate k RQEntry.coyote, 0, w, sc, zs, a, false,
          false⟩ =
      Except.ok ⟨[], none, false, [], [], 0, wmid, sc + items.length, zs,
        N, false, false⟩ := by
  intro items
  induction items with
  | nil =>
    intro k hk f a w wmid sc zs hak hproc
    simp only [List.map_nil, processAll, Except.ok.injEq] at hproc
    subst hproc
    simp only [List.map_nil, List.nil_append, List.length_nil,
      Nat.zero_add, Nat.add_zero]
    exact drainLoop_coyotes N solves k hk f a w sc zs hak
  | cons x xs ihx =>
    intro k hk f a w wmid sc zs hak hproc
    rcases processAll_append_ok w wmid [x.name] (xs.map Item.name)
        (by simpa using hproc) with ⟨w₁, h1, h2⟩
    have hx := processAll_single_ok w w₁ x.name h1
    rw [show (x :: xs).length + k + f + 1 = (xs.length + k + f + 1) + 1
      from by simp [List.length_cons]; omega]
    have hd : drainLoop N solves ((xs.length + k + f + 1) + 1)
        ⟨[], none, false, [], RQEntry.res x ::
          (xs.map RQEntry.res ++ List.replicate k RQEntry.coyote), 0, w,
          sc, zs, a, false, false⟩ =
      (do
        let w₂ ← process_solve_results w x.name
        if a = N then
          Except.ok ⟨[], none, false, [],
            xs.map RQEntry.res ++ List.replicate k RQEntry.coyote, 0, w₂,
            sc + 1, zs, a, false, false⟩
        else drainLoop N solves (xs.length + k + f + 1) (workerStep
          N solves ⟨[], none, false, [],
            xs.map RQEntry.res ++ List.replicate k RQEntry.coyote, 0, w₂,
            sc + 1, zs, a, false, false⟩)) := rfl
    simp only [List.map_cons, List.cons_append]
    rw [hd, hx, exceptBind_ok, if_neg (by omega),
      workerStep_eval_idle N solves _ rfl]
    rw [ihx k hk f a w₁ wmid (sc + 1) zs hak h2]
    simp [Nat.add_comm, Nat.add_left_comm]

theorem start_run (N : Nat) (solves : Item → Bool) (hN : N ≠ 0)
    (i : Item) (rest : List Item) (wfin : WriterState)
    (hproc : processAll ⟨∅, []⟩ (((i :: rest).filter solves).map
      Item.name) = Except.ok wfin) :
    start N solves (i :: rest) =
      Except.ok ⟨[], none, false, [], [], 0, wfin,
        ((i :: rest).filter solves).length, N, N, true, true⟩ := by
  have hne := List.cons_ne_nil i rest
  have hsplit : (i :: rest).filter solves =
      (i :: rest).dropLast.filter solves ++
        ([(i :: rest).getLast hne].filter solves) := by
    conv_lhs => rw [← List.dropLast_append_getLast hne]
    rw [List.filter_append]
  rw [hsplit, List.map_append] at hproc
  rcases processAll_append_ok _ _ _ _ hproc with ⟨w₁, hw₁, hlast⟩
  have hm := mainLoop_run N solves hN rest i [] ⟨∅, []⟩ w₁ 0 0 0
    (by simp) (by simpa using hw₁)
  simp only [List.map_nil, List.nil_append, Nat.zero_add] at hm
  rw [show start N solves (i :: rest) =
    (do
      let s₁ ← mainLoop N solves ((i :: rest).length + 1)
        ⟨rest, some i, true, [], [], N, ⟨∅, []⟩, 0, 0, 0, false, false⟩
      let s₂ ← shutdownPush N solves (N + 1) N s₁
      let s₃ ← drainLoop N solves (N + 2) s₂
      joinAndClose s₃) from rfl]
  rw [show (i :: rest).length + 1 = rest.length + 2 from by
    simp [List.length_cons]]
  rw [hm, exceptBind_ok]
  by_cases hls : solves ((i :: rest).getLast hne)
  · rw [if_pos hls]
    rw [shutdownPush_run N solves N [RQEntry.res ((i :: rest).getLast
      hne)] w₁ ((i :: rest).dropLast.filter solves).length 0 0
      (by simp only [List.length_cons, List.length_nil]; omega),
      exceptBind_ok]
    simp only [Nat.zero_add]
    have hdr := drainLoop_run N solves [(i :: rest).getLast hne] N
      (by omega) 0 0 w₁ wfin
      ((i :: rest).dropLast.filter solves).length N (by omega)
      (by simpa [List.filter_cons, hls] using hlast)
    simp only [List.map_cons, List.map_nil, List.length_cons,
      List.length_nil, Nat.zero_add, List.cons_append, List.nil_append]
      at hdr
    rw [show N + 2 = 1 + N + 0 + 1 from by omega]
    simp only [List.singleton_append]
    rw [hdr, exceptBind_ok]
    rw [show joinAndClose ⟨[], none, false, [], [], 0, wfin,
        ((i :: rest).dropLast.filter solves).length + 1, N, N, false,
        false⟩ =
      Except.ok ⟨[], none, false, [], [], 0, wfin,
        ((i :: rest).dropLast.filter solves).length + 1, N, N, true,
        true⟩ from rfl]
    simp [hsplit, List.filter_cons, hls]
  · rw [if_neg hls]
    rw [shutdownPush_run N solves N [] w₁
      ((i :: rest).dropLast.filter solves).length 0 0
      (by simp only [List.length_nil]; omega), exceptBind_ok]
    simp only [Nat.zero_add, List.nil_append]
    have hdr := drainLoop_run N solves [] N (by omega) 1 0 w₁ wfin
      ((i :: rest).dropLast.filter solves).length N (by omega)
      (by simpa [List.filter_cons, hls, processAll] using hlast)
    simp only [List.map_nil, List.nil_append, List.length_nil,
      Nat.zero_add, Nat.add_zero] at hdr
    rw [show N + 2 = N + 1 + 1 from by omega]
    rw [hdr, exceptBind_ok]
    rw [show joinAndClose ⟨[], none, false, [], [], 0, wfin,
        ((i :: rest).dropLast.filter solves).length, N, N, false,
        false⟩ =
      Except.ok ⟨[], none, false, [], [], 0, wfin,
        ((i :: rest).dropLast.filter solves).length, N, N, true,
        true⟩ from rfl]
    simp [hsplit, List.filter_cons, hls]

theorem mapM_parse_length (names : List PyStr) :
    ∀ idxs, names.mapM parseRunIndex = some idxs →
      idxs.length = names.length := by
  induction names with
  | nil =>
    intro idxs h
    simp only [List.mapM_nil, Option.pure_def, Option.some_inj] at h
    subst h
    rfl
  | cons n rest ih =>
    intro idxs h
    rw [List.mapM_cons] at h
    rcases h₁ : parseRunIndex n with _ | i
    · rw [h₁] at h
      exact absurd h (by simp)
    · rw [h₁] at h
      rcases h₂ : rest.mapM parseRunIndex with _ | is
      · rw [h₂] at h
        exact absurd h (by simp)
      · rw [h₂] at h
        simp at h
        subst h
        simp [ih is h₂]

theorem length_filter_not_aux (p : Item → Bool) (l : List Item) :
    (l.filter p).length + (l.filter (fun a => ! p a)).length = l.length := by
  induction l with
  | nil => rfl
  | cons a t ih =>
    by_cases hp : p a
    · simp only [List.filter_cons, hp, Bool.not_true, if_pos,
        Bool.false_eq_true, if_false, List.length_cons]
      omega
    · simp only [List.filter_cons, hp, Bool.false_eq_true, if_false,
        Bool.not_false, if_pos, List.length_cons]
      omega

theorem start_run_distinct (N : Nat) (solves : Item → Bool)
    (items : List Item) (idxs : List Int) (hN : N ≠ 0)
    (hne : items ≠ [])
    (hp : ((items.filter solves).map Item.name).mapM parseRunIndex =
      some idxs) (hnd : idxs.Nodup) :
    start N solves items = Except.ok
      ⟨[], none, false, [], [], 0,
        ⟨idxs.toFinset, idxs.zip ((items.filter solves).map Item.name)⟩,
        (items.filter solves).length, N, N, true, true⟩ := by
  rcases items with _ | ⟨i, rest⟩
  · exact absurd rfl hne
  · have hw := processAll_distinct_ok ⟨∅, []⟩
      (((i :: rest).filter solves).map Item.name) idxs hp hnd
      (by intro j _; simp)
    have := start_run N solves hN i rest
      ⟨∅ ∪ idxs.toFinset,
        [] ++ idxs.zip (((i :: rest).filter solves).map Item.name)⟩ hw
    simpa using this

/-- C1 (amended): for every Work Generator emitting K ≥ 1 items with
distinct run indices and a pool of N ≥ 1 workers, when every item solves
successfully the run produces exactly K Result Records with K distinct run
indices and the coordinator terminates without deadlock (workers joined,
channels closed) — in particular for K ∈ {1, N, N + 1, 10·N}.  The K = 0
case of the original claim fails: `next(run_gen)` raises `StopIteration`
(see the counterexample). -/
theorem coordinator_completeness (N : Nat) (items : List Item)
    (idxs : List Int) (hN : N ≠ 0) (hne : items ≠ [])
    (hp : (items.map Item.name).mapM parseRunIndex = some idxs)
    (hnd : idxs.Nodup) :
    ∃ final, start N (fun _ => true) items = Except.ok final ∧
      final.writer.written = idxs.zip (items.map Item.name) ∧
      final.writer.written.length = items.length ∧
      (final.writer.written.map Prod.fst).Nodup ∧
      final.joined = true ∧ final.channelsClosed = true ∧
      final.workersRunning = 0 := by
  have hf : items.filter (fun _ => true) = items := List.filter_true items
  have hrun := start_run_distinct N (fun _ => true) items idxs hN hne
    (by rw [hf]; exact hp) hnd
  rw [hf] at hrun
  have hlen : idxs.length = (items.map Item.name).length :=
    mapM_parse_length (items.map Item.name) idxs hp
  refine ⟨_, hrun, rfl, ?_, ?_, rfl, rfl, rfl⟩
  · simp [List.length_zip, hlen]
  · rw [List.map_fst_zip idxs (items.map Item.name) (le_of_eq hlen)]
    exact hnd

/-- Counterexample to C1 as stated: with K = 0 the coordinator pulls the
first run from an exhausted generator and `StopIteration` escapes — no
Result Records, but no clean termination either. -/
theorem coordinator_empty_generator_cex :
    start 1 (fun _ => true) [] = Except.error MCError.stopIteration := rfl

/-- Demo fixture: three MC run items with tagged names. -/
def itA : Item := ⟨"run-1".toList⟩

/-- Demo fixture: second run item. -/
def itB : Item := ⟨"run-2".toList⟩

/-- Demo fixture: third run item. -/
def itC : Item := ⟨"run-3".toList⟩

/-- Witness for C1: three items on a two-worker pool produce three records
with distinct indices and a clean shutdown. -/
theorem coordinator_completeness_witness :
    ∃ final, start 2 (fun _ => true) [itA, itB, itC] = Except.ok final ∧
      final.writer.written =
        [(1 : Int), 2, 3].zip ([itA, itB, itC].map Item.name) ∧
      final.writer.written.length = [itA, itB, itC].length ∧
      (final.writer.written.map Prod.fst).Nodup ∧
      final.joined = true ∧ final.channelsClosed = true ∧
      final.workersRunning = 0 :=
  coordinator_completeness 2 [itA, itB, itC] [1, 2, 3] (by decide)
    (by decide) (by decide) (by decide)

/-- The solve predicate of the C2 demo: the item named `run-2` fails. -/
def demoSolves : Item → Bool := fun it => it.name != ("run-2".toList)

/-- C2 (amended): a worker whose solve fails posts no Result Record, does
not retry, and returns to waiting; consequently for a run of K ≥ 1 items
of which M fail, exactly K − M Result Records are produced and the run
still terminates cleanly.  The degenerate K = 0 run of the original claim
instead raises `StopIteration` (see the counterexample). -/
theorem worker_failure_isolation (N : Nat) (solves : Item → Bool)
    (items : List Item) (idxs : List Int) (hN : N ≠ 0) (hne : items ≠ [])
    (hp : ((items.filter solves).map Item.name).mapM parseRunIndex =
      some idxs) (hnd : idxs.Nodup) :
    (∀ (s : SeqState) (it : Item) (tail : List WQEntry),
      solves it = false → s.workersRunning ≠ 0 →
      s.workQueue = WQEntry.work it :: tail →
      (workerStep N solves s).resultQueue = s.resultQueue ∧
      (workerStep N solves s).workQueue = tail) ∧
    ∃ final, start N solves items = Except.ok final ∧
      final.writer.written =
        idxs.zip ((items.filter solves).map Item.name) ∧
      final.writer.written.length +
        (items.filter (fun it => ! solves it)).length = items.length ∧
      final.joined = true ∧ final.channelsClosed = true := by
  constructor
  · intro s it tail hfail hrun hw
    unfold workerStep
    rw [hw]
    dsimp only
    rw [if_neg hrun]
    simp [hfail]
  · have hrun := start_run_distinct N solves items idxs hN hne hp hnd
    have hlen : idxs.length = ((items.filter solves).map Item.name).length :=
      mapM_parse_length _ idxs hp
    refine ⟨_, hrun, rfl, ?_, rfl, rfl⟩
    have hzip : ((idxs.zip ((items.filter solves).map
        Item.name)).length) = (items.filter solves).length := by
      simp [List.length_zip, hlen]
    rw [show (⟨[], none, false, [], [], 0,
      ⟨idxs.toFinset, idxs.zip ((items.filter solves).map Item.name)⟩,
      (items.filter solves).length, N, N, true, true⟩ :
        SeqState).writer.written =
      idxs.zip ((items.filter solves).map Item.name) from rfl, hzip]
    exact length_filter_not_aux solves items

/-- Counterexample to C2 as stated: the K = 0, M = 0 run produces the
claimed K − M = 0 records but does not terminate cleanly — it raises
`StopIteration`. -/
theorem worker_failure_empty_run_cex :
    start 2 (fun _ => false) [] = Except.error MCError.stopIteration := rfl

/-- Witness for C2: of three items on one worker, the failing `run-2` is
dropped silently and the two survivors are written. -/
theorem worker_failure_isolation_witness :
    ((∀ (s : SeqState) (it : Item) (tail : List WQEntry),
      demoSolves it = false → s.workersRunning ≠ 0 →
      s.workQueue = WQEntry.work it :: tail →
      (workerStep 1 demoSolves s).resultQueue = s.resultQueue ∧
      (workerStep 1 demoSolves s).workQueue = tail) ∧
    ∃ final, start 1 demoSolves [itA, itB, itC] = Except.ok final ∧
      final.writer.written =
        [(1 : Int), 3].zip (([itA, itB, itC].filter demoSolves).map
          Item.name) ∧
      final.writer.written.length +
        ([itA, itB, itC].filter (fun it => ! demoSolves it)).length =
          [itA, itB, itC].length ∧
      final.joined = true ∧ final.channelsClosed = true) :=
  worker_failure_isolation 1 demoSolves [itA, itB, itC] [1, 3]
    (by decide) (by decide) (by decide) (by decide)

/-- C4 (amended): for every run whose generator emits at least one item,
once the generator is exhausted the coordinator enqueues exactly one
shutdown token per worker; a worker receiving the token posts exactly one
acknowledgment and exits without taking further items; the coordinator
keeps draining the results channel, counting acknowledgments and handing
every non-acknowledgment record to aggregation, and joins the workers and
closes the channels only once the count equals the pool size.  The K = 0
run of the original claim never reaches the shutdown handshake — it
raises `StopIteration` (see the counterexample). -/
theorem shutdown_handshake (N : Nat) (solves : Item → Bool)
    (items : List Item) (idxs : List Int) (hN : N ≠ 0) (hne : items ≠ [])
    (hp : ((items.filter solves).map Item.name).mapM parseRunIndex =
      some idxs) (hnd : idxs.Nodup) :
    (∀ (s : SeqState) (tail : List WQEntry), s.workersRunning ≠ 0 →
      s.resultQueue.length < N + 1 →
      s.workQueue = WQEntry.zebra :: tail →
      (workerStep N solves s).resultQueue =
        s.resultQueue ++ [RQEntry.coyote] ∧
      (workerStep N solves s).workQueue = tail ∧
      (workerStep N solves s).workersRunning = s.workersRunning - 1) ∧
    ∃ final, start N solves items = Except.ok final ∧
      final.zebrasSent = N ∧ final.acksSeen = N ∧
      final.workersRunning = 0 ∧
      final.writer.written =
        idxs.zip ((items.filter solves).map Item.name) ∧
      final.joined = true ∧ final.channelsClosed = true ∧
      final.workQueue = [] ∧ final.resultQueue = [] := by
  constructor
  · intro s tail hrun hcap hw
    unfold workerStep
    rw [hw]
    dsimp only
    rw [if_neg hrun]
    simp [if_pos hcap]
  · exact ⟨_, start_run_distinct N solves items idxs hN hne hp hnd,
      rfl, rfl, rfl, rfl, rfl, rfl, rfl, rfl⟩

/-- Counterexample to C4 as stated: with an empty generator the Work
Generator is exhausted, yet no shutdown token is ever enqueued and no
worker is joined — the coordinator aborts with `StopIteration`. -/
theorem shutdown_handshake_empty_run_cex :
    start 3 (fun _ => true) [] = Except.error MCError.stopIteration := rfl

/-- Witness for C4: one item on a pool of three workers — three shutdown
tokens, three acknowledgments, all workers exited, channels closed. -/
theorem shutdown_handshake_witness :
    ((∀ (s : SeqState) (tail : List WQEntry), s.workersRunning ≠ 0 →
      s.resultQueue.length < 3 + 1 →
      s.workQueue = WQEntry.zebra :: tail →
      (workerStep 3 (fun _ => true) s).resultQueue =
        s.resultQueue ++ [RQEntry.coyote] ∧
      (workerStep 3 (fun _ => true) s).workQueue = tail ∧
      (workerStep 3 (fun _ => true) s).workersRunning =
        s.workersRunning - 1) ∧
    ∃ final, start 3 (fun _ => true) [itA] = Except.ok final ∧
      final.zebrasSent = 3 ∧ final.acksSeen = 3 ∧
      final.workersRunning = 0 ∧
      final.writer.written =
        [(1 : Int)].zip (([itA].filter (fun _ => true)).map Item.name) ∧
      final.joined = true ∧ final.channelsClosed = true ∧
      final.workQueue = [] ∧ final.resultQueue = []) :=
  shutdown_handshake 3 (fun _ => true) [itA] [1] (by decide) (by decide)
    (by decide) (by decide)

end Temoa
